import Mathlib

/-!
A verification development for the MongoDB schema-migration engine of this
repository.  The repository ships two closely related implementations of the
`migration` package:

* the `mongo-migration-tool` engine (`src/unnamed/part_030`, first file:
  `Engine`, `migrate`, `getMigrationsForUp`, `getMigrationsForDown`,
  `executeMigration`, `Force`, `GetStatus`, `acquireLock`), modelled below in
  namespace `EngineTool`;
* the `mongo-essential` engine (`src/unnamed/part_030`, second file: `run`,
  `planExecution`, `executeWithRetry`, `perform`, `isTransactionNotSupported`,
  `Force`, `GetStatus`, `acquireLock`), modelled below in namespace
  `EngineEss`.

The registry variants (`src/migration/registry.go`, `src/unnamed/part_028`,
`src/unnamed/part_029`) are modelled in namespaces `RegistryTool` and
`RegistrySync`.

The MongoDB driver is treated as a black box: each database call is resolved
by an explicit oracle (`Env`), and executed migrations, record writes and lock
operations are logged as `Event`s so theorems can talk about what a run
invoked.  Machine-level details that the claims do not touch (BSON encoding,
wire protocol) are abstracted; version strings are compared with an explicit
byte-order comparison mirroring Go's `sort.Strings`.
-/

namespace MongoMigration

/-! ## Go string order (`sort.Strings`)

Go compares strings by their UTF-8 bytes; UTF-8 byte order coincides with
code-point order, so a code-point-wise lexicographic comparison is faithful.
Lean 4.14's built-in `String.lt` does not reduce in the kernel, so we define
the comparison ourselves. -/

/-- Lexicographic `≤` on char lists by code point (Go's string `<=`). -/
def lexLe : List Char → List Char → Bool
  | [], _ => true
  | _ :: _, [] => false
  | c :: cs, d :: ds =>
    if c.toNat < d.toNat then true
    else if d.toNat < c.toNat then false
    else lexLe cs ds

/-- Go's `a <= b` on strings. -/
def sLe (a b : String) : Bool := lexLe a.data b.data

/-- Go's `a < b` on strings: `≤` and not equal. -/
def sLt (a b : String) : Bool := sLe a b && !(a == b)

theorem lexLe_refl (l : List Char) : lexLe l l = true := by
  induction l with
  | nil => rfl
  | cons c cs ih => simp [lexLe, ih]

theorem lexLe_total (a b : List Char) : lexLe a b = true ∨ lexLe b a = true := by
  induction a generalizing b with
  | nil => exact .inl rfl
  | cons c cs ih =>
    cases b with
    | nil => exact .inr rfl
    | cons d ds =>
      by_cases h₁ : c.toNat < d.toNat
      · exact .inl (by simp [lexLe, h₁])
      · by_cases h₂ : d.toNat < c.toNat
        · exact .inr (by simp [lexLe, h₂])
        · rcases ih ds with h | h
          · exact .inl (by simp [lexLe, h₁, h₂, h])
          · exact .inr (by simp [lexLe, h₁, h₂, h])

theorem lexLe_antisymm {a b : List Char} (hab : lexLe a b = true)
    (hba : lexLe b a = true) : a = b := by
  induction a generalizing b with
  | nil =>
    cases b with
    | nil => rfl
    | cons d ds => simp [lexLe] at hba
  | cons c cs ih =>
    cases b with
    | nil => simp [lexLe] at hab
    | cons d ds =>
      by_cases h₁ : c.toNat < d.toNat
      · have : ¬ d.toNat < c.toNat := Nat.lt_asymm h₁
        simp [lexLe, h₁, this] at hba
      · by_cases h₂ : d.toNat < c.toNat
        · simp [lexLe, h₁, h₂] at hab
        · have hcd : c = d := by
            have hnat : c.toNat = d.toNat :=
              Nat.le_antisymm (Nat.le_of_not_lt h₂) (Nat.le_of_not_lt h₁)
            exact Char.ext (UInt32.ext hnat)
          subst hcd
          simp [lexLe, h₁] at hab hba
          simp [ih hab hba]

theorem lexLe_trans {a b c : List Char} (hab : lexLe a b = true)
    (hbc : lexLe b c = true) : lexLe a c = true := by
  induction a generalizing b c with
  | nil => rfl
  | cons x xs ih =>
    cases b with
    | nil => simp [lexLe] at hab
    | cons y ys =>
      cases c with
      | nil => simp [lexLe] at hbc
      | cons z zs =>
        by_cases hxy : x.toNat < y.toNat
        · by_cases hyz : y.toNat < z.toNat
          · have hxz : x.toNat < z.toNat := Nat.lt_trans hxy hyz
            simp [lexLe, hxz]
          · by_cases hzy : z.toNat < y.toNat
            · simp [lexLe, hxy, Nat.lt_asymm hxy, hyz, hzy] at hbc
            · have hyz' : y.toNat = z.toNat :=
                Nat.le_antisymm (Nat.le_of_not_lt hzy) (Nat.le_of_not_lt hyz)
              have hxz : x.toNat < z.toNat := hyz' ▸ hxy
              simp [lexLe, hxz]
        · by_cases hyx : y.toNat < x.toNat
          · simp [lexLe, hxy, hyx] at hab
          · have hxy' : x.toNat = y.toNat :=
              Nat.le_antisymm (Nat.le_of_not_lt hyx) (Nat.le_of_not_lt hxy)
            simp [lexLe, hxy, hyx] at hab
            by_cases hyz : y.toNat < z.toNat
            · have hxz : x.toNat < z.toNat := hxy' ▸ hyz
              simp [lexLe, hxz]
            · by_cases hzy : z.toNat < y.toNat
              · simp [lexLe, hyz, hzy] at hbc
              · have hxz : ¬ x.toNat < z.toNat := by omega
                have hzx : ¬ z.toNat < x.toNat := by omega
                simp [lexLe, hyz, hzy] at hbc
                simp [lexLe, hxz, hzx, ih hab hbc]

theorem sLe_refl (a : String) : sLe a a = true := lexLe_refl _

theorem sLe_total (a b : String) : sLe a b = true ∨ sLe b a = true :=
  lexLe_total _ _

theorem sLe_antisymm {a b : String} (hab : sLe a b = true)
    (hba : sLe b a = true) : a = b :=
  String.ext (lexLe_antisymm hab hba)

theorem sLe_trans {a b c : String} (hab : sLe a b = true)
    (hbc : sLe b c = true) : sLe a c = true :=
  lexLe_trans hab hbc

theorem sLt_iff {a b : String} : sLt a b = true ↔ sLe a b = true ∧ a ≠ b := by
  simp [sLt]

theorem sLt_asymm {a b : String} (h : sLt a b = true) : sLt b a = false := by
  rcases sLt_iff.mp h with ⟨hle, hne⟩
  by_contra hba
  have hba' : sLt b a = true := by
    cases hb : sLt b a
    · exact absurd hb hba
    · rfl
  rcases sLt_iff.mp hba' with ⟨hle', _⟩
  exact hne (sLe_antisymm hle hle')

theorem sLt_irrefl (a : String) : sLt a a = false := by
  simp [sLt]

theorem sLe_of_sLt {a b : String} (h : sLt a b = true) : sLe a b = true :=
  (sLt_iff.mp h).1

theorem sLt_of_sLe_of_ne {a b : String} (hle : sLe a b = true) (hne : a ≠ b) :
    sLt a b = true := sLt_iff.mpr ⟨hle, hne⟩

theorem sLt_trans {a b c : String} (hab : sLt a b = true)
    (hbc : sLt b c = true) : sLt a c = true := by
  rcases sLt_iff.mp hab with ⟨hab', hne₁⟩
  rcases sLt_iff.mp hbc with ⟨hbc', hne₂⟩
  refine sLt_iff.mpr ⟨sLe_trans hab' hbc', ?_⟩
  rintro rfl
  exact hne₁ (sLe_antisymm hab' hbc')

/-! ## `sort.Strings`

Go's `sort.Strings` is a comparison sort; on the duplicate-free key lists it
is applied to here, the sorted permutation is unique, so an insertion sort is
an observationally faithful model. -/

/-- Insert a version into an already sorted list. -/
def insertSorted (v : String) : List String → List String
  | [] => [v]
  | w :: ws => if sLe v w then v :: w :: ws else w :: insertSorted v ws

/-- Model of Go's `sort.Strings`. -/
def sortStrings (l : List String) : List String := l.foldr insertSorted []

theorem insertSorted_perm (v : String) (l : List String) :
    List.Perm (insertSorted v l) (v :: l) := by
  induction l with
  | nil => rfl
  | cons w ws ih =>
    by_cases h : sLe v w = true
    · simp [insertSorted, h]
    · simp only [insertSorted, h]
      rw [if_neg (by simp [h])]
      exact .trans (.cons w ih) (.swap v w ws)

theorem sortStrings_perm (l : List String) : List.Perm (sortStrings l) l := by
  induction l with
  | nil => rfl
  | cons v vs ih =>
    exact .trans (insertSorted_perm v (sortStrings vs)) (.cons v ih)

theorem mem_sortStrings {v : String} {l : List String} :
    v ∈ sortStrings l ↔ v ∈ l := (sortStrings_perm l).mem_iff

theorem sortStrings_nodup {l : List String} (h : l.Nodup) :
    (sortStrings l).Nodup := ((sortStrings_perm l).symm.nodup h)

theorem insertSorted_sorted {v : String} {l : List String}
    (h : l.Pairwise (fun a b => sLe a b = true)) :
    (insertSorted v l).Pairwise (fun a b => sLe a b = true) := by
  induction l with
  | nil => simp [insertSorted]
  | cons w ws ih =>
    by_cases hvw : sLe v w = true
    · simp only [insertSorted, hvw, if_pos]
      refine List.Pairwise.cons ?_ h
      intro b hb
      rcases hb with _ | hb
      · exact hvw
      · exact sLe_trans hvw (List.rel_of_pairwise_cons h (by assumption))
    · simp only [insertSorted, hvw]
      rw [if_neg (by simp [hvw])]
      rcases h with _ | ⟨hw, hws⟩
      refine List.Pairwise.cons ?_ (ih hws)
      intro b hb
      have hb' := (insertSorted_perm v ws).mem_iff.mp hb
      rcases List.mem_cons.mp hb' with rfl | hb'
      · rcases sLe_total w b with h' | h'
        · exact h'
        · exact absurd h' hvw
      · exact hw b hb'

theorem sortStrings_sorted (l : List String) :
    (sortStrings l).Pairwise (fun a b => sLe a b = true) := by
  induction l with
  | nil => exact .nil
  | cons v vs ih => exact insertSorted_sorted ih

/-- A sorted, duplicate-free list is strictly sorted. -/
theorem pairwise_sLt_of_sorted_nodup {l : List String}
    (hs : l.Pairwise (fun a b => sLe a b = true)) (hn : l.Nodup) :
    l.Pairwise (fun a b => sLt a b = true) := by
  have := List.Pairwise.and hs hn
  exact this.imp (fun h => sLt_of_sLe_of_ne h.1 h.2)

theorem sortStrings_pairwise_sLt {l : List String} (h : l.Nodup) :
    (sortStrings l).Pairwise (fun a b => sLt a b = true) :=
  pairwise_sLt_of_sorted_nodup (sortStrings_sorted l) (sortStrings_nodup h)

/-! ## Data model

`Migration` is the user-facing contract (`src/unnamed/part_031`): a version, a
description, and effectful `Up`/`Down` bodies.  The bodies are user code the
engine treats as opaque; their outcomes are resolved by the oracle `Env`
below, so a migration value here is just its identity. -/

/-- The identity of a migration (its `Version()` and `Description()`). -/
structure Migration where
  version : String
  description : String
deriving DecidableEq, Repr

/-- `MigrationRecord` (part_030 lines 415-420): the persisted trace. -/
structure MigRecord where
  version : String
  description : String
  appliedAt : Nat
  checksum : String
deriving DecidableEq, Repr

/-- `MigrationStatus` (part_030 lines 422-427). -/
structure MigrationStatus where
  version : String
  description : String
  applied : Bool
  appliedAt : Option Nat
deriving DecidableEq, Repr

/-- `Direction` (part_031). -/
inductive Direction where
  | up
  | down
deriving DecidableEq, Repr

/-- A Go `context.Context`, reduced to what the engine observes of it. -/
structure Ctx where
  cancelled : Bool
deriving DecidableEq, Repr

/-- `context.Background()`: never cancelled. -/
def Ctx.background : Ctx := ⟨false⟩

/-- A registry snapshot: Go's `map[string]Migration`.  The Go map guarantees
duplicate-free keys; theorems carry that as an explicit `Nodup` hypothesis. -/
abbrev Registry := List (String × Migration)

/-- Go map read `migs[v]` (`nil` for a missing key becomes `none`). -/
def lookupMig : Registry → String → Option Migration
  | [], _ => none
  | (k, m) :: rest, v => if k = v then some m else lookupMig rest v

/-- Keys of the registry map. -/
def regKeys (migs : Registry) : List String := migs.map Prod.fst

theorem lookupMig_eq_none {migs : Registry} {v : String} :
    lookupMig migs v = none ↔ v ∉ regKeys migs := by
  induction migs with
  | nil => simp [lookupMig, regKeys]
  | cons p rest ih =>
    obtain ⟨k, m⟩ := p
    by_cases h : k = v
    · subst h
      simp [lookupMig, regKeys]
    · simp [lookupMig, regKeys, h, Ne.symm h] at ih ⊢
      exact ih

theorem lookupMig_isSome {migs : Registry} {v : String} :
    (lookupMig migs v).isSome = true ↔ v ∈ regKeys migs := by
  rcases h : lookupMig migs v with _ | m
  · simpa [h] using lookupMig_eq_none.mp h
  · simp only [h, Option.isSome_some, true_iff]
    by_contra hmem
    rw [← lookupMig_eq_none] at hmem
    rw [h] at hmem
    exact Option.noConfusion hmem

theorem lookupMig_mem {migs : Registry} {v : String} {m : Migration}
    (h : lookupMig migs v = some m) : (v, m) ∈ migs := by
  induction migs with
  | nil => simp [lookupMig] at h
  | cons p rest ih =>
    obtain ⟨k, m'⟩ := p
    by_cases hk : k = v
    · subst hk
      simp [lookupMig] at h
      simp [h]
    · simp [lookupMig, hk] at h
      simp [ih h]

/-- Enumerating the distinct members of a list once each, as ranging over the
keys of a Go map built from the list does. -/
def dedupKeys : List String → List String
  | [] => []
  | v :: rest => v :: (dedupKeys rest).filter (fun w => !(w == v))

theorem mem_dedupKeys {l : List String} {v : String} :
    v ∈ dedupKeys l ↔ v ∈ l := by
  induction l with
  | nil => simp [dedupKeys]
  | cons w rest ih =>
    simp only [dedupKeys, List.mem_cons, List.mem_filter]
    constructor
    · rintro (rfl | ⟨hmem, _⟩)
      · exact .inl rfl
      · exact .inr (ih.mp hmem)
    · rintro (rfl | hmem)
      · exact .inl rfl
      · by_cases hv : v = w
        · exact .inl hv
        · exact .inr ⟨ih.mpr hmem, by simp [hv]⟩

theorem nodup_dedupKeys (l : List String) : (dedupKeys l).Nodup := by
  induction l with
  | nil => simp [dedupKeys]
  | cons w rest ih =>
    simp only [dedupKeys]
    refine List.Nodup.cons ?_ (List.Nodup.filter _ ih)
    intro hmem
    rw [List.mem_filter] at hmem
    simp at hmem

/-- Building `map[string]MigrationRecord` by iterating a record list: later
entries overwrite earlier ones, exactly as repeated Go map assignment does. -/
def buildAppliedMap (records : List MigRecord) : String → Option MigRecord :=
  records.foldl (fun acc r => fun v => if v = r.version then some r else acc v)
    (fun _ => none)

theorem buildAppliedMap_isSome {records : List MigRecord} {v : String} :
    (buildAppliedMap records v).isSome = true ↔ v ∈ records.map (·.version) := by
  suffices h : ∀ (acc : String → Option MigRecord),
      ((records.foldl (fun acc r => fun v => if v = r.version then some r else acc v) acc) v).isSome
        = true ↔ v ∈ records.map (·.version) ∨ (acc v).isSome = true by
    have := h (fun _ => none)
    simpa [buildAppliedMap] using this
  induction records with
  | nil => simp
  | cons r rest ih =>
    intro acc
    simp only [List.foldl_cons, List.map_cons, List.mem_cons]
    rw [ih]
    by_cases hv : v = r.version
    · simp [hv]
    · simp [hv, Ne.symm hv]

theorem buildAppliedMap_eq_none {records : List MigRecord} {v : String} :
    buildAppliedMap records v = none ↔ v ∉ records.map (·.version) := by
  rcases h : buildAppliedMap records v with _ | r
  · simp only [true_iff]
    intro hmem
    have := buildAppliedMap_isSome.mpr hmem
    rw [h] at this
    simp at this
  · constructor
    · intro heq
      exact Option.noConfusion heq
    · intro hmem
      exact absurd (buildAppliedMap_isSome.mp (by simp [h])) hmem

theorem buildAppliedMap_go_mem (records : List MigRecord) :
    ∀ (acc : String → Option MigRecord) (v : String) (r : MigRecord),
      (records.foldl (fun acc r => fun v => if v = r.version then some r else acc v) acc) v = some r →
      (r ∈ records ∧ r.version = v) ∨ acc v = some r := by
  induction records with
  | nil => intro acc v r h'; exact .inr h'
  | cons q rest ih =>
    intro acc v r h'
    simp only [List.foldl_cons] at h'
    have hstep := ih (fun w => if w = q.version then some q else acc w) v r h'
    rcases hstep with ⟨hmem, hver⟩ | hacc
    · exact .inl ⟨List.mem_cons_of_mem _ hmem, hver⟩
    · by_cases hv : v = q.version
      · simp only [hv, if_pos] at hacc
        have hq : q = r := by simpa using hacc
        subst hq
        exact .inl ⟨List.mem_cons_self .., hv.symm⟩
      · simp only [if_neg hv] at hacc
        exact .inr hacc

theorem buildAppliedMap_mem {records : List MigRecord} {v : String} {r : MigRecord}
    (h : buildAppliedMap records v = some r) : r ∈ records ∧ r.version = v := by
  rcases buildAppliedMap_go_mem records (fun _ => none) v r h with h' | h'
  · exact h'
  · exact absurd h' (by simp)

/-- With duplicate-free record versions, the applied map returns exactly the
record that carries the version. -/
theorem buildAppliedMap_eq_some {records : List MigRecord} {r : MigRecord}
    (hn : (records.map (·.version)).Nodup) (hr : r ∈ records) :
    buildAppliedMap records r.version = some r := by
  rcases h : buildAppliedMap records r.version with _ | r'
  · exact absurd (buildAppliedMap_eq_none.mp h) (by simp; exact ⟨r, hr, rfl⟩)
  · rcases buildAppliedMap_mem h with ⟨hr', hv⟩
    have : r = r' := by
      have hinj := List.inj_on_of_nodup_map hn
      exact (hinj hr hr' hv.symm).symm ▸ rfl
    rw [this]

/-! ## Checksums

`calculateChecksum` (part_030 lines 375-380 and 645-648) feeds
`version + ":" + description` to SHA-256 and hex-encodes the digest.  The hash
itself lives in Go's standard library; it is abstracted as an oracle
`sha : String → String` (hex digest of the UTF-8 bytes of its argument), which
both engines share. -/

/-- `calculateChecksum`: `sha256_hex(version + ":" + description)`. -/
def calculateChecksum (sha : String → String) (m : Migration) : String :=
  sha (m.version ++ ":" ++ m.description)

/-- A fresh record (`newRecord`, part_030 lines 650-657; built inline at lines
33-38, 165-170 and 262-267): description and checksum snapshotted from the
migration, `applied_at` from the wall clock. -/
def mkRecord (sha : String → String) (now : Nat) (m : Migration) : MigRecord :=
  { version := m.version
    description := m.description
    appliedAt := now
    checksum := calculateChecksum sha m }

/-! ## Driver errors and the transactions-not-supported classifier -/

/-- The driver error shapes the engines inspect: `mongo.CommandError` (code +
message), `mongo.WriteException` whose `WriteConcernError` is set (code +
message), or any other error (its `Error()` string). -/
inductive MongoErr where
  | command (code : Nat) (message : String)
  | writeConcern (code : Nat) (message : String)
  | other (message : String)
deriving DecidableEq, Repr

/-- ASCII lowering of a character, as `strings.ToLower` acts on the ASCII
error messages involved here.  (Lean's own `String.toLower` does not reduce in
the kernel.) -/
def lowerChar (c : Char) : Char :=
  if 65 ≤ c.toNat ∧ c.toNat ≤ 90 then Char.ofNat (c.toNat + 32) else c

/-- `leadsWith pat l`: `pat` is a prefix of `l`. -/
def leadsWith : List Char → List Char → Bool
  | [], _ => true
  | _ :: _, [] => false
  | c :: cs, d :: ds => c == d && leadsWith cs ds

/-- `hasSub hay pat`: `strings.Contains(hay, pat)` on char lists. -/
def hasSub : List Char → List Char → Bool
  | [], pat => pat.isEmpty
  | c :: rest, pat => leadsWith pat (c :: rest) || hasSub rest pat

/-- `strings.Contains(strings.ToLower(s), pat)` for an ASCII pattern. -/
def containsLower (s pat : String) : Bool :=
  hasSub (s.data.map lowerChar) pat.data

/-- The message `isTransactionNotSupported` greps for. -/
def txNotSupportedMsg : String := "transactions are not supported"

/-- `isTransactionNotSupported` (part_030 lines 659-685): command or
write-concern error codes 20 (IllegalOperation), 251 (NoSuchTransaction),
303 (TransactionNotSupportedInShardedCluster), or an error text containing
"transactions are not supported".  The final `err.Error()` fallback is
reflected in the `other` case; for the structured cases the `Error()` string
embeds the same message that was already checked. -/
def isTransactionNotSupported (e : MongoErr) : Bool :=
  match e with
  | .command code msg =>
      code == 20 || code == 251 || code == 303 || containsLower msg txNotSupportedMsg
  | .writeConcern code msg =>
      code == 20 || code == 251 || code == 303 || containsLower msg txNotSupportedMsg
  | .other msg => containsLower msg txNotSupportedMsg

/-- The inline fallback test of the first engine's `executeMigration`
(part_030 lines 284-288): `errors.As(err, &cmdErr) && cmdErr.HasErrorCode(20)`
— only a `CommandError` with code 20 triggers the non-transactional rerun. -/
def fallbackOnCode20 (e : MongoErr) : Bool :=
  match e with
  | .command code _ => code == 20
  | _ => false

/-! ## Engine state, oracle and event log -/

/-- Outcome of a Mongo insert as the engines classify it. -/
inductive InsertErr where
  | duplicateKey
  | other (msg : String)
deriving DecidableEq, Repr

/-- An index the engine asks the driver to ensure. -/
structure IndexSpec where
  key : String
  unique : Bool
  expireAfterSeconds : Option Nat
deriving DecidableEq, Repr

/-- Observable actions of a run: calls into migration bodies, record and lock
writes, and index creation.  The claims are stated over this log. -/
inductive Event where
  | ensureIndex (collection : String) (spec : IndexSpec)
  | lockInsert (ctx : Ctx)
  | lockDelete (ctx : Ctx)
  | applyMig (version : String)
  | revertMig (version : String)
  | insertRecord (version : String)
  | deleteRecord (version : String)
  | replaceRecord (version : String)
deriving DecidableEq, Repr

/-- The database state the engine owns: the migrations collection and the
(at most one) lock document, keyed by the constant lock id. -/
structure DB where
  records : List MigRecord
  lockDoc : Option Nat
deriving DecidableEq, Repr

/-- Error outcomes of engine operations, structured after the `fmt.Errorf`
values and sentinel errors of the source. -/
inductive Err where
  | lockHeld
  | lockOther (msg : String)
  | readRecords (msg : String)
  | checksumMismatch (version stored live : String)
  | missingFromRegistry (version : String)
  | nilMigrationPanic (version : String)
  | txFailed (version : String) (e : MongoErr)
  | bodyFailed (version : String) (dir : Direction)
  | recordFailed (version : String) (dir : Direction)
  | notFound (version : String)
  | forceFailed (version : String) (msg : String)
deriving DecidableEq, Repr

/-- Oracle for everything outside the engine: the clock, the SHA-256 digest,
and the outcome of each driver call and user migration body.  A cancelled
context is represented by an oracle that fails the corresponding calls, so
quantifying over `Env` covers cancellation. -/
structure Env where
  sha : String → String
  now : Nat
  findErr : Option String
  lockInsertResult : Option InsertErr
  txResult : String → Direction → Option MongoErr
  bodyOk : String → Direction → Bool
  recordOk : String → Direction → Bool
  forceWriteErr : Option String
  releaseOk : Bool

/-- `collection.DeleteOne(ctx, bson.M{"version": version})`: removes the
first record with the version. -/
def deleteOneRecord : List MigRecord → String → List MigRecord
  | [], _ => []
  | r :: rest, v => if r.version = v then rest else r :: deleteOneRecord rest v

/-- `ReplaceOne(..., options.Replace().SetUpsert(true))`: replace the first
record with the version, else append. -/
def replaceOneUpsert : List MigRecord → String → MigRecord → List MigRecord
  | [], _, newRec => [newRec]
  | r :: rest, v, newRec =>
      if r.version = v then newRec :: rest else r :: replaceOneUpsert rest v newRec

/-- The checksum validation both engines run for an up migration that already
has a record (part_030 lines 223-232 and 522-528, `validateChecksum` lines
635-643); `v` is the version the error message cites. -/
def checksumGuard (sha : String → String) (dir : Direction) (recOpt : Option MigRecord)
    (v : String) (m : Migration) : Except Err Unit :=
  match dir, recOpt with
  | .up, some rec =>
      if rec.checksum = calculateChecksum sha m then .ok ()
      else .error (.checksumMismatch v rec.checksum (calculateChecksum sha m))
  | _, _ => .ok ()

/-! ## The `mongo-migration-tool` engine (part_030, first file) -/

namespace EngineTool

/-- `lockID` (line 63). -/
def lockID : String := "migration_engine_lock"

/-- `NewEngine` sets `lockCollection := migrationsCollection + "_lock"`
(line 58). -/
def lockCollection (migrationsCollection : String) : String :=
  migrationsCollection ++ "_lock"

/-- `acquireLock` (lines 65-88): ensure a unique index on `lock_id`, insert
the sentinel document; duplicate key means another instance holds the lock,
any other insert error propagates. -/
def acquireLock (env : Env) (ctx : Ctx) (migrationsCollection : String) (st : DB) :
    Except Err Unit × DB × List Event :=
  let evs := [Event.ensureIndex (lockCollection migrationsCollection) ⟨"lock_id", true, none⟩,
              Event.lockInsert ctx]
  match env.lockInsertResult with
  | none => (.ok (), { st with lockDoc := some env.now }, evs)
  | some .duplicateKey => (.error .lockHeld, st, evs)
  | some (.other msg) => (.error (.lockOther msg), st, evs)

/-- `releaseLock` (lines 90-93): best-effort `DeleteOne` of the sentinel; the
error is discarded. -/
def releaseLock (env : Env) (ctx : Ctx) (st : DB) : DB × List Event :=
  (if env.releaseOk then { st with lockDoc := none } else st, [Event.lockDelete ctx])

/-- `getSortedVersions` (lines 332-339). -/
def getSortedVersions (migs : Registry) : List String :=
  sortStrings (regKeys migs)

/-- `shouldStopAtTarget` (lines 371-373). -/
def shouldStopAtTarget (target currentVersion : String) : Bool :=
  !(target == "") && currentVersion == target

/-- `getMigrationsForUp` (lines 342-353): walk ascending; pending versions are
appended, and the walk stops only when an *appended* version is the target. -/
def getMigrationsForUp (versions : List String) (target : String)
    (appliedMap : String → Bool) : List String :=
  match versions with
  | [] => []
  | v :: rest =>
      if !(appliedMap v) then
        if shouldStopAtTarget target v then [v]
        else v :: getMigrationsForUp rest target appliedMap
      else getMigrationsForUp rest target appliedMap

/-- Loop body of `getMigrationsForDown` (lines 356-368) over the reversed
version list: skip non-applied versions; for an applied version, stop *before*
appending if it is the target. -/
def downGo (target : String) (appliedMap : String → Bool) : List String → List String
  | [] => []
  | v :: rest =>
      if appliedMap v then
        if shouldStopAtTarget target v then []
        else v :: downGo target appliedMap rest
      else downGo target appliedMap rest

/-- `getMigrationsForDown` (lines 356-368): iterate `versions` from the last
index down. -/
def getMigrationsForDown (versions : List String) (target : String)
    (appliedMap : String → Bool) : List String :=
  downGo target appliedMap versions.reverse

/-- `getMigrationsToExecute` (lines 316-329). -/
def getMigrationsToExecute (migs : Registry) (dir : Direction) (target : String)
    (appliedMap : String → Bool) : List String :=
  match dir with
  | .up => getMigrationsForUp (getSortedVersions migs) target appliedMap
  | .down => getMigrationsForDown (getSortedVersions migs) target appliedMap

/-- `executeMigrationNoTx` (lines 24-51): run the body, then write or delete
the record — data change first, record second. -/
def executeMigrationNoTx (env : Env) (m : Migration) (dir : Direction) (st : DB) :
    Except Err Unit × DB × List Event :=
  match dir with
  | .up =>
      if env.bodyOk m.version .up then
        if env.recordOk m.version .up then
          (.ok (), { st with records := st.records ++ [mkRecord env.sha env.now m] },
            [.applyMig m.version, .insertRecord m.version])
        else
          (.error (.recordFailed m.version .up), st,
            [.applyMig m.version, .insertRecord m.version])
      else (.error (.bodyFailed m.version .up), st, [.applyMig m.version])
  | .down =>
      if env.bodyOk m.version .down then
        if env.recordOk m.version .down then
          (.ok (), { st with records := deleteOneRecord st.records m.version },
            [.revertMig m.version, .deleteRecord m.version])
        else
          (.error (.recordFailed m.version .down), st,
            [.revertMig m.version, .deleteRecord m.version])
      else (.error (.bodyFailed m.version .down), st, [.revertMig m.version])

/-- `executeMigration` (lines 244-291): try the pair inside a transaction; a
committed transaction performs body + record write atomically, a failed one
is rolled back.  Only a `CommandError` with code 20 triggers the
non-transactional rerun; any other failure is returned. -/
def executeMigration (env : Env) (m : Migration) (dir : Direction) (st : DB) :
    Except Err Unit × DB × List Event :=
  match env.txResult m.version dir with
  | none =>
      match dir with
      | .up => (.ok (), { st with records := st.records ++ [mkRecord env.sha env.now m] },
                [.applyMig m.version, .insertRecord m.version])
      | .down => (.ok (), { st with records := deleteOneRecord st.records m.version },
                  [.revertMig m.version, .deleteRecord m.version])
  | some e =>
      if fallbackOnCode20 e then executeMigrationNoTx env m dir st
      else (.error (.txFailed m.version e), st, [])

/-- The execution loop of `migrate` (lines 217-238): registry lookup with an
explicit nil check, the up-direction checksum guard, then the executor. -/
def migrateLoop (env : Env) (migs : Registry) (applied : String → Option MigRecord)
    (dir : Direction) : List String → DB → Except Err Unit × DB × List Event
  | [], st => (.ok (), st, [])
  | v :: rest, st =>
      match lookupMig migs v with
      | none => (.error (.missingFromRegistry v), st, [])
      | some m =>
          match checksumGuard env.sha dir (applied v) v m with
          | .error e => (.error e, st, [])
          | .ok _ =>
              match executeMigration env m dir st with
              | (.error e, st', ev) => (.error e, st', ev)
              | (.ok _, st', ev) =>
                  match migrateLoop env migs applied dir rest st' with
                  | (r, st'', ev') => (r, st'', ev ++ ev')

/-- `migrate` (lines 188-241): acquire the lock, load the applied records,
plan, execute sequentially; `releaseLock(context.Background())` is deferred so
it runs on every path after a successful acquisition. -/
def migrate (env : Env) (ctx : Ctx) (migs : Registry) (migrationsCollection : String)
    (dir : Direction) (target : String) (st : DB) : Except Err Unit × DB × List Event :=
  match acquireLock env ctx migrationsCollection st with
  | (.error e, st₁, ev₁) => (.error e, st₁, ev₁)
  | (.ok _, st₁, ev₁) =>
      let body :=
        match env.findErr with
        | some msg => (Except.error (Err.readRecords msg), st₁, ([] : List Event))
        | none =>
            let appliedMap := buildAppliedMap st₁.records
            let plan := getMigrationsToExecute migs dir target (fun v => (appliedMap v).isSome)
            migrateLoop env migs appliedMap dir plan st₁
      match body with
      | (res, st₂, ev₂) =>
          match releaseLock env Ctx.background st₂ with
          | (st₃, ev₃) => (res, st₃, ev₁ ++ ev₂ ++ ev₃)

/-- `Up` (lines 148-151). -/
def Up (env : Env) (ctx : Ctx) (migs : Registry) (migrationsCollection : String)
    (target : String) (st : DB) : Except Err Unit × DB × List Event :=
  migrate env ctx migs migrationsCollection .up target st

/-- `Down` (lines 153-156). -/
def Down (env : Env) (ctx : Ctx) (migs : Registry) (migrationsCollection : String)
    (target : String) (st : DB) : Except Err Unit × DB × List Event :=
  migrate env ctx migs migrationsCollection .down target st

/-- `Force` (lines 159-185): registry lookup, then an unconditional
`ReplaceOne` upsert of a fresh record — no applied-check, no `apply` call. -/
def Force (env : Env) (migs : Registry) (version : String) (st : DB) :
    Except Err Unit × DB × List Event :=
  match lookupMig migs version with
  | none => (.error (.notFound version), st, [])
  | some m =>
      match env.forceWriteErr with
      | some msg => (.error (.forceFailed version msg), st, [.replaceRecord version])
      | none =>
          (.ok (),
            { st with records := replaceOneUpsert st.records version (mkRecord env.sha env.now m) },
            [.replaceRecord version])

/-- `GetStatus` (lines 96-146), with the `Find` call abstracted to the record
list it returns: union of registered and recorded versions, sorted; the
description of an unregistered version falls back to the stored record.
Iterating the keys of the Go applied map visits each recorded version once;
`dedupKeys` models that enumeration. -/
def GetStatus (migs : Registry) (records : List MigRecord) : List MigrationStatus :=
  let appliedMap := buildAppliedMap records
  let appliedOnly := (dedupKeys (records.map (·.version))).filter
    (fun v => !(v ∈ regKeys migs : Bool))
  let allVersions := sortStrings (regKeys migs ++ appliedOnly)
  allVersions.map (fun v =>
    let rec? := appliedMap v
    { version := v
      description :=
        match lookupMig migs v with
        | some m => m.description
        | none => match rec? with
                  | some r => r.description
                  | none => ""
      applied := rec?.isSome
      appliedAt := rec?.map (·.appliedAt) })

end EngineTool

/-! ## The `mongo-essential` engine (part_030, second file) -/

namespace EngineEss

/-- `defaultLockID`, `collLock` (lines 399-402). -/
def defaultLockID : String := "migration_engine_lock"

/-- The fixed lock collection name `migrations_lock`. -/
def collLock : String := "migrations_lock"

/-- TTL index on `acquired_at` with `SetExpireAfterSeconds(600)` (lines
690-693). -/
def ttlIndex : IndexSpec := ⟨"acquired_at", false, some 600⟩

/-- Unique index on `lock_id` (lines 694-697). -/
def uniqueLockIndex : IndexSpec := ⟨"lock_id", true, none⟩

/-- `acquireLock` (lines 687-708): ensure the TTL index and the unique index,
insert the sentinel; `IsDuplicateKeyError` maps to `ErrFailedToLock`
(`lockHeld` here), anything else is returned unchanged. -/
def acquireLock (env : Env) (ctx : Ctx) (st : DB) :
    Except Err Unit × DB × List Event :=
  let evs := [Event.ensureIndex collLock ttlIndex,
              Event.ensureIndex collLock uniqueLockIndex,
              Event.lockInsert ctx]
  match env.lockInsertResult with
  | none => (.ok (), { st with lockDoc := some env.now }, evs)
  | some .duplicateKey => (.error .lockHeld, st, evs)
  | some (.other msg) => (.error (.lockOther msg), st, evs)

/-- `releaseLock` (lines 710-713): best-effort `DeleteOne`, error ignored. -/
def releaseLock (env : Env) (ctx : Ctx) (st : DB) : DB × List Event :=
  (if env.releaseOk then { st with lockDoc := none } else st, [Event.lockDelete ctx])

/-- `getSortedVersions` (lines 588-595). -/
def getSortedVersions (migs : Registry) : List String :=
  sortStrings (regKeys migs)

/-- Loop body of `planExecution` (lines 571-584): the applied/pending filter
appends `v` *before* the `v == target` break is evaluated. -/
def planGo (dir : Direction) (target : String) (applied : String → Bool) :
    List String → List String
  | [] => []
  | v :: rest =>
      let took :=
        if dir == .up && !(applied v) then [v]
        else if dir == .down && applied v then [v]
        else []
      if !(target == "") && v == target then took
      else took ++ planGo dir target applied rest

/-- `planExecution` (lines 564-586): sorted versions, reversed for the down
direction, then the take/break walk.  (The Go function also returns an `error`
that is always `nil`.) -/
def planExecution (migs : Registry) (dir : Direction) (target : String)
    (applied : String → Bool) : List String :=
  let versions := getSortedVersions migs
  let versions := match dir with
    | .up => versions
    | .down => versions.reverse
  planGo dir target applied versions

/-- `perform` (lines 597-614): body first, then the record insert or delete. -/
def perform (env : Env) (m : Migration) (dir : Direction) (st : DB) :
    Except Err Unit × DB × List Event :=
  match dir with
  | .up =>
      if env.bodyOk m.version .up then
        if env.recordOk m.version .up then
          (.ok (), { st with records := st.records ++ [mkRecord env.sha env.now m] },
            [.applyMig m.version, .insertRecord m.version])
        else
          (.error (.recordFailed m.version .up), st,
            [.applyMig m.version, .insertRecord m.version])
      else (.error (.bodyFailed m.version .up), st, [.applyMig m.version])
  | .down =>
      if env.bodyOk m.version .down then
        if env.recordOk m.version .down then
          (.ok (), { st with records := deleteOneRecord st.records m.version },
            [.revertMig m.version, .deleteRecord m.version])
        else
          (.error (.recordFailed m.version .down), st,
            [.revertMig m.version, .deleteRecord m.version])
      else (.error (.bodyFailed m.version .down), st, [.revertMig m.version])

/-- `executeWithRetry` (lines 546-562): run `perform` inside a transaction; a
committed transaction is the successful pair, a failed one is rolled back.
Exactly when `isTransactionNotSupported` classifies the failure, the pair is
re-run without a transaction via `perform`. -/
def executeWithRetry (env : Env) (m : Migration) (dir : Direction) (st : DB) :
    Except Err Unit × DB × List Event :=
  match env.txResult m.version dir with
  | none =>
      match dir with
      | .up => (.ok (), { st with records := st.records ++ [mkRecord env.sha env.now m] },
                [.applyMig m.version, .insertRecord m.version])
      | .down => (.ok (), { st with records := deleteOneRecord st.records m.version },
                  [.revertMig m.version, .deleteRecord m.version])
  | some e =>
      if isTransactionNotSupported e then perform env m dir st
      else (.error (.txFailed m.version e), st, [])

/-- The execution loop of `run` (lines 519-534).  `e.migrations[version]` has
no nil check here; a missing key would be a nil-interface method call, modelled
as the distinguished `nilMigrationPanic` outcome. -/
def runLoop (env : Env) (migs : Registry) (applied : String → Option MigRecord)
    (dir : Direction) : List String → DB → Except Err Unit × DB × List Event
  | [], st => (.ok (), st, [])
  | v :: rest, st =>
      match lookupMig migs v with
      | none => (.error (.nilMigrationPanic v), st, [])
      | some m =>
          match checksumGuard env.sha dir (applied v) m.version m with
          | .error e => (.error e, st, [])
          | .ok _ =>
              match executeWithRetry env m dir st with
              | (.error e, st', ev) => (.error e, st', ev)
              | (.ok _, st', ev) =>
                  match runLoop env migs applied dir rest st' with
                  | (r, st'', ev') => (r, st'', ev ++ ev')

/-- `run` (lines 503-537): acquire the lock, read the applied records, plan,
execute; `defer e.releaseLock(context.Background())` runs on every path after
a successful acquisition, with a fresh background context. -/
def run (env : Env) (ctx : Ctx) (migs : Registry) (dir : Direction) (target : String)
    (st : DB) : Except Err Unit × DB × List Event :=
  match acquireLock env ctx st with
  | (.error e, st₁, ev₁) => (.error e, st₁, ev₁)
  | (.ok _, st₁, ev₁) =>
      let body :=
        match env.findErr with
        | some msg => (Except.error (Err.readRecords msg), st₁, ([] : List Event))
        | none =>
            let applied := buildAppliedMap st₁.records
            let plan := planExecution migs dir target (fun v => (applied v).isSome)
            runLoop env migs applied dir plan st₁
      match body with
      | (res, st₂, ev₂) =>
          match releaseLock env Ctx.background st₂ with
          | (st₃, ev₃) => (res, st₃, ev₁ ++ ev₂ ++ ev₃)

/-- `Up` (lines 470-472). -/
def Up (env : Env) (ctx : Ctx) (migs : Registry) (target : String) (st : DB) :
    Except Err Unit × DB × List Event :=
  run env ctx migs .up target st

/-- `Down` (lines 474-476). -/
def Down (env : Env) (ctx : Ctx) (migs : Registry) (target : String) (st : DB) :
    Except Err Unit × DB × List Event :=
  run env ctx migs .down target st

/-- `Force` (lines 478-501): registry lookup, read the applied map, no-op if
the version is already recorded, otherwise insert a fresh record.  Neither
branch runs `apply` or `revert`. -/
def Force (env : Env) (migs : Registry) (version : String) (st : DB) :
    Except Err Unit × DB × List Event :=
  match lookupMig migs version with
  | none => (.error (.notFound version), st, [])
  | some m =>
      match env.findErr with
      | some msg => (.error (.readRecords msg), st, [])
      | none =>
          if (buildAppliedMap st.records version).isSome then (.ok (), st, [])
          else
            match env.forceWriteErr with
            | some msg => (.error (.forceFailed version msg), st, [.insertRecord version])
            | none =>
                (.ok (),
                  { st with records := st.records ++ [mkRecord env.sha env.now m] },
                  [.insertRecord version])

/-- `GetStatus` (lines 446-468), with the read abstracted to the record list:
only the registered versions are listed (`e.getSortedVersions()`); for each,
the applied flag and timestamp come from the record map.  `e.migrations[v]`
is always a hit because `v` ranges over the registry's own keys. -/
def GetStatus (migs : Registry) (records : List MigRecord) : List MigrationStatus :=
  let applied := buildAppliedMap records
  (getSortedVersions migs).map (fun v =>
    { version := v
      description :=
        match lookupMig migs v with
        | some m => m.description
        | none => ""
      applied := (applied v).isSome
      appliedAt := (applied v).map (·.appliedAt) })

end EngineEss

/-! ## The registries -/

/-- Outcome of a registration call: the updated registry, or a Go panic. -/
inductive RegResult where
  | ok (reg : Registry)
  | panicked (msg : String)
deriving DecidableEq, Repr

/-- The Go runtime message for a method call through a nil interface. -/
def nilDerefMsg : String :=
  "runtime error: invalid memory address or nil pointer dereference"

namespace RegistryTool

/-- `Register` of `src/migration/registry.go` lines 20-28 (identically
`src/unnamed/part_028` lines 11-19): for each entry, `m.Version()` is called
first — a nil entry is a nil-interface method call and panics — then a
duplicate version panics, otherwise the entry is inserted. -/
def Register (reg : Registry) : List (Option Migration) → RegResult
  | [] => .ok reg
  | none :: _ => .panicked nilDerefMsg
  | some m :: rest =>
      if (lookupMig reg m.version).isSome then
        .panicked ("migration: duplicate version registered: " ++ m.version)
      else Register (reg ++ [(m.version, m)]) rest

end RegistryTool

namespace RegistrySync

/-- Go map assignment `registered[v] = m`: overwrite or append. -/
def mapInsert (reg : Registry) (v : String) (m : Migration) : Registry :=
  if (lookupMig reg v).isSome then
    reg.map (fun p => if p.1 = v then (v, m) else p)
  else reg ++ [(v, m)]

/-- `Register` of `src/unnamed/part_029` lines 12-16: a single entry, no
duplicate check (assignment overwrites), no nil check (`m.Version()` on a nil
entry panics). -/
def Register (reg : Registry) : Option Migration → RegResult
  | none => .panicked nilDerefMsg
  | some m => .ok (mapInsert reg m.version m)

end RegistrySync

/-! ## Helper notions for the theorems -/

/-- The registry invariant the Go code maintains by construction: every map
key is the `Version()` of its migration (`Register` stores `m` under
`m.Version()`). -/
abbrev RegWF (migs : Registry) : Prop := ∀ p ∈ migs, p.1 = p.2.version

theorem lookupMig_version {migs : Registry} {v : String} {m : Migration}
    (hwf : RegWF migs) (h : lookupMig migs v = some m) : m.version = v :=
  (hwf _ (lookupMig_mem h)).symm

/-- The version an event is about, if any. -/
def eventVersion : Event → Option String
  | .applyMig v => some v
  | .revertMig v => some v
  | .insertRecord v => some v
  | .deleteRecord v => some v
  | .replaceRecord v => some v
  | _ => none

/-- The sequence of `apply` invocations in an event log. -/
def applySeq (evs : List Event) : List String :=
  evs.filterMap (fun e => match e with | .applyMig v => some v | _ => none)

/-- The sequence of `revert` invocations in an event log. -/
def revertSeq (evs : List Event) : List String :=
  evs.filterMap (fun e => match e with | .revertMig v => some v | _ => none)

theorem sLe_eq_false_of_sLt {a b : String} (h : sLt a b = true) : sLe b a = false := by
  rcases sLt_iff.mp h with ⟨hle, hne⟩
  cases hba : sLe b a
  · rfl
  · exact absurd (sLe_antisymm hle hba) hne

theorem sLt_eq_false_of_sLt {a b : String} (h : sLt a b = true) : sLt b a = false := by
  have := sLe_eq_false_of_sLt h
  simp [sLt, this]

/-! ## Planner characterisations: the `mongo-migration-tool` engine -/

namespace EngineTool

theorem shouldStopAtTarget_iff {target v : String} :
    shouldStopAtTarget target v = true ↔ target ≠ "" ∧ v = target := by
  simp [shouldStopAtTarget, beq_iff_eq, and_comm]

/-- If the stop condition can never fire on a pending version, the up walk is
a plain filter for pending versions (covers: empty target, unregistered
target, and an already-applied target). -/
theorem getMigrationsForUp_no_stop {versions : List String} {target : String}
    {applied : String → Bool}
    (h : ∀ v ∈ versions, applied v = false → shouldStopAtTarget target v = false) :
    getMigrationsForUp versions target applied = versions.filter (fun v => !applied v) := by
  induction versions with
  | nil => rfl
  | cons v rest ih =>
    have ih' := ih (fun w hw => h w (List.mem_cons_of_mem _ hw))
    cases hap : applied v
    · have hstop := h v (List.mem_cons_self ..) hap
      simp [getMigrationsForUp, hap, hstop, List.filter_cons, ih']
    · simp [getMigrationsForUp, hap, List.filter_cons, ih']

/-- The up walk of the first engine does **not** stop at an already-applied
target: the break is only evaluated for appended (pending) versions. -/
theorem getMigrationsForUp_applied_target {versions : List String} {target : String}
    {applied : String → Bool} (h : applied target = true) :
    getMigrationsForUp versions target applied = versions.filter (fun v => !applied v) := by
  refine getMigrationsForUp_no_stop ?_
  intro v _ hv
  cases hstop : shouldStopAtTarget target v
  · rfl
  · rcases shouldStopAtTarget_iff.mp hstop with ⟨_, rfl⟩
    rw [h] at hv
    exact Bool.noConfusion hv

/-- On a strictly sorted list containing a pending, non-empty target, the up
walk is exactly the pending versions `≤ target`, in ascending order. -/
theorem getMigrationsForUp_char {versions : List String} {target : String}
    {applied : String → Bool}
    (hsort : versions.Pairwise (fun a b => sLt a b = true))
    (hmem : target ∈ versions) (hne : target ≠ "") (hpend : applied target = false) :
    getMigrationsForUp versions target applied
      = versions.filter (fun v => !applied v && sLe v target) := by
  induction versions with
  | nil => cases hmem
  | cons v rest ih =>
    rcases List.mem_cons.mp hmem with rfl | hmem'
    · have hstop : shouldStopAtTarget target target = true :=
        shouldStopAtTarget_iff.mpr ⟨hne, rfl⟩
      have hrest : List.filter (fun w => !applied w && sLe w target) rest = [] := by
        rw [List.filter_eq_nil_iff]
        intro w hw
        have hvw : sLt target w = true := List.rel_of_pairwise_cons hsort hw
        simp [sLe_eq_false_of_sLt hvw]
      simp [getMigrationsForUp, hpend, hstop, List.filter_cons, sLe_refl, hrest]
    · have hvt : sLt v target = true := List.rel_of_pairwise_cons hsort hmem'
      have hle : sLe v target = true := sLe_of_sLt hvt
      have ih' := ih (List.pairwise_cons.mp hsort).2 hmem'
      cases hap : applied v
      · have hstop : shouldStopAtTarget target v = false := by
          cases hstop : shouldStopAtTarget target v
          · rfl
          · rcases shouldStopAtTarget_iff.mp hstop with ⟨_, rfl⟩
            rw [sLt_irrefl] at hvt
            exact Bool.noConfusion hvt
        simp [getMigrationsForUp, hap, hstop, List.filter_cons, hle, ih']
      · simp [getMigrationsForUp, hap, List.filter_cons, ih']

/-- If the stop condition can never fire on an applied version, the down walk
over the (already reversed) list is a plain filter for applied versions
(covers: empty target, unregistered target, and a non-applied target). -/
theorem downGo_no_stop {versions : List String} {target : String}
    {applied : String → Bool}
    (h : ∀ v ∈ versions, applied v = true → shouldStopAtTarget target v = false) :
    downGo target applied versions = versions.filter (fun v => applied v) := by
  induction versions with
  | nil => rfl
  | cons v rest ih =>
    have ih' := ih (fun w hw => h w (List.mem_cons_of_mem _ hw))
    cases hap : applied v
    · simp [downGo, hap, List.filter_cons, ih']
    · have hstop := h v (List.mem_cons_self ..) hap
      simp [downGo, hap, hstop, List.filter_cons, ih']

/-- On a strictly descending list containing a non-empty, applied target, the
down walk is exactly the applied versions strictly above the target — the
target itself is excluded because the break runs before the append. -/
theorem downGo_char {versions : List String} {target : String}
    {applied : String → Bool}
    (hsort : versions.Pairwise (fun a b => sLt b a = true))
    (hmem : target ∈ versions) (hne : target ≠ "") (happ : applied target = true) :
    downGo target applied versions
      = versions.filter (fun v => applied v && sLt target v) := by
  induction versions with
  | nil => cases hmem
  | cons v rest ih =>
    rcases List.mem_cons.mp hmem with rfl | hmem'
    · have hstop : shouldStopAtTarget target target = true :=
        shouldStopAtTarget_iff.mpr ⟨hne, rfl⟩
      have hrest : List.filter (fun w => applied w && sLt target w) rest = [] := by
        rw [List.filter_eq_nil_iff]
        intro w hw
        have hwv : sLt w target = true := List.rel_of_pairwise_cons hsort hw
        simp [sLt_eq_false_of_sLt hwv]
      simp [downGo, happ, hstop, List.filter_cons, sLt_irrefl, hrest]
    · have htv : sLt target v = true := List.rel_of_pairwise_cons hsort hmem'
      have ih' := ih (List.pairwise_cons.mp hsort).2 hmem'
      cases hap : applied v
      · simp [downGo, hap, List.filter_cons, ih']
      · have hstop : shouldStopAtTarget target v = false := by
          cases hstop : shouldStopAtTarget target v
          · rfl
          · rcases shouldStopAtTarget_iff.mp hstop with ⟨_, rfl⟩
            rw [sLt_irrefl] at htv
            exact Bool.noConfusion htv
        simp [downGo, hap, hstop, List.filter_cons, htv, ih']

/-- `getMigrationsForDown` on a strictly ascending version list with an
applied, non-empty target: the applied versions strictly greater than the
target, in descending order. -/
theorem getMigrationsForDown_char {versions : List String} {target : String}
    {applied : String → Bool}
    (hsort : versions.Pairwise (fun a b => sLt a b = true))
    (hmem : target ∈ versions) (hne : target ≠ "") (happ : applied target = true) :
    getMigrationsForDown versions target applied
      = (versions.filter (fun v => applied v && sLt target v)).reverse := by
  unfold getMigrationsForDown
  rw [downGo_char (List.pairwise_reverse.mpr hsort) (List.mem_reverse.mpr hmem) hne happ]
  rw [List.filter_reverse]

/-- The up walk never emits an applied version and is a sublist of its
input. -/
theorem getMigrationsForUp_sublist (versions : List String) (target : String)
    (applied : String → Bool) :
    (getMigrationsForUp versions target applied).Sublist versions ∧
    ∀ v ∈ getMigrationsForUp versions target applied, applied v = false := by
  induction versions with
  | nil => exact ⟨.slnil, by intro v hv; cases hv⟩
  | cons v rest ih =>
    cases hap : applied v
    · cases hstop : shouldStopAtTarget target v
      · simp only [getMigrationsForUp, hap, hstop]
        refine ⟨(ih.1).cons₂ v, ?_⟩
        intro w hw
        rcases List.mem_cons.mp hw with rfl | hw'
        · exact hap
        · exact ih.2 w hw'
      · simp only [getMigrationsForUp, hap, hstop]
        refine ⟨?_, ?_⟩
        · exact List.Sublist.cons₂ v (List.nil_sublist rest)
        · intro w hw
          rcases List.mem_cons.mp hw with rfl | hw'
          · exact hap
          · cases hw'
    · simp only [getMigrationsForUp, hap]
      exact ⟨(ih.1).cons v, ih.2⟩

/-- The down walk only emits applied versions and is a sublist of its
input. -/
theorem downGo_sublist (versions : List String) (target : String)
    (applied : String → Bool) :
    (downGo target applied versions).Sublist versions ∧
    ∀ v ∈ downGo target applied versions, applied v = true := by
  induction versions with
  | nil => exact ⟨.slnil, by intro v hv; cases hv⟩
  | cons v rest ih =>
    cases hap : applied v
    · simp only [downGo, hap]
      exact ⟨(ih.1).cons v, ih.2⟩
    · cases hstop : shouldStopAtTarget target v
      · simp only [downGo, hap, hstop]
        refine ⟨(ih.1).cons₂ v, ?_⟩
        intro w hw
        rcases List.mem_cons.mp hw with rfl | hw'
        · exact hap
        · exact ih.2 w hw'
      · simp only [downGo, hap, hstop]
        exact ⟨List.nil_sublist _, by intro w hw; cases hw⟩

end EngineTool

/-! ## Planner characterisations: the `mongo-essential` engine -/

namespace EngineEss

/-- If the break can never fire, the up walk is a plain pending filter. -/
theorem planGo_up_no_stop {versions : List String} {target : String}
    {applied : String → Bool}
    (h : ∀ v ∈ versions, ¬(target ≠ "" ∧ v = target)) :
    planGo .up target applied versions = versions.filter (fun v => !applied v) := by
  induction versions with
  | nil => rfl
  | cons v rest ih =>
    have hbreak : (!(target == "") && v == target) = false := by
      have := h v (List.mem_cons_self ..)
      by_cases ht : target = ""
      · simp [ht]
      · have hvt : v ≠ target := fun hv => this ⟨ht, hv⟩
        simp [beq_iff_eq, hvt, ht]
    have ih' := ih (fun w hw => h w (List.mem_cons_of_mem _ hw))
    cases hap : applied v <;>
      simp [planGo, hap, hbreak, List.filter_cons, ih']

/-- If the break can never fire, the down walk is a plain applied filter. -/
theorem planGo_down_no_stop {versions : List String} {target : String}
    {applied : String → Bool}
    (h : ∀ v ∈ versions, ¬(target ≠ "" ∧ v = target)) :
    planGo .down target applied versions = versions.filter (fun v => applied v) := by
  induction versions with
  | nil => rfl
  | cons v rest ih =>
    have hbreak : (!(target == "") && v == target) = false := by
      have := h v (List.mem_cons_self ..)
      by_cases ht : target = ""
      · simp [ht]
      · have hvt : v ≠ target := fun hv => this ⟨ht, hv⟩
        simp [beq_iff_eq, hvt, ht]
    have ih' := ih (fun w hw => h w (List.mem_cons_of_mem _ hw))
    cases hap : applied v <;>
      simp [planGo, hap, hbreak, List.filter_cons, ih']

/-- On a strictly ascending list containing a non-empty target, the up walk
is exactly the pending versions `≤ target` — the break runs *after* the
take, so the walk is inclusive whether or not the target is pending. -/
theorem planGo_up_char {versions : List String} {target : String}
    {applied : String → Bool}
    (hsort : versions.Pairwise (fun a b => sLt a b = true))
    (hmem : target ∈ versions) (hne : target ≠ "") :
    planGo .up target applied versions
      = versions.filter (fun v => !applied v && sLe v target) := by
  induction versions with
  | nil => cases hmem
  | cons v rest ih =>
    rcases List.mem_cons.mp hmem with rfl | hmem'
    · have hrest : List.filter (fun w => !applied w && sLe w target) rest = [] := by
        rw [List.filter_eq_nil_iff]
        intro w hw
        have hvw : sLt target w = true := List.rel_of_pairwise_cons hsort hw
        simp [sLe_eq_false_of_sLt hvw]
      cases hap : applied target <;>
        simp [planGo, hap, hne, List.filter_cons, sLe_refl, hrest]
    · have hvt : sLt v target = true := List.rel_of_pairwise_cons hsort hmem'
      have hvne : v ≠ target := (sLt_iff.mp hvt).2
      have hle : sLe v target = true := sLe_of_sLt hvt
      have ih' := ih (List.pairwise_cons.mp hsort).2 hmem'
      cases hap : applied v <;>
        simp [planGo, hap, hvne, List.filter_cons, hle, ih']

/-- On a strictly descending list containing a non-empty target, the down walk
is exactly the applied versions `≥ target` — in particular an applied target
is itself taken before the break fires. -/
theorem planGo_down_char {versions : List String} {target : String}
    {applied : String → Bool}
    (hsort : versions.Pairwise (fun a b => sLt b a = true))
    (hmem : target ∈ versions) (hne : target ≠ "") :
    planGo .down target applied versions
      = versions.filter (fun v => applied v && sLe target v) := by
  induction versions with
  | nil => cases hmem
  | cons v rest ih =>
    rcases List.mem_cons.mp hmem with rfl | hmem'
    · have hrest : List.filter (fun w => applied w && sLe target w) rest = [] := by
        rw [List.filter_eq_nil_iff]
        intro w hw
        have hwv : sLt w target = true := List.rel_of_pairwise_cons hsort hw
        simp [sLe_eq_false_of_sLt hwv]
      cases hap : applied target <;>
        simp [planGo, hap, hne, List.filter_cons, sLe_refl, hrest]
    · have htv : sLt target v = true := List.rel_of_pairwise_cons hsort hmem'
      have hvne : v ≠ target := fun h => by
        subst h
        rw [sLt_irrefl] at htv
        exact Bool.noConfusion htv
      have hle : sLe target v = true := sLe_of_sLt htv
      have ih' := ih (List.pairwise_cons.mp hsort).2 hmem'
      cases hap : applied v <;>
        simp [planGo, hap, hvne, List.filter_cons, hle, ih']

/-- The up walk only emits pending versions and is a sublist of its input. -/
theorem planGo_up_sublist (versions : List String) (target : String)
    (applied : String → Bool) :
    (planGo .up target applied versions).Sublist versions ∧
    ∀ v ∈ planGo .up target applied versions, applied v = false := by
  induction versions with
  | nil => exact ⟨.slnil, by intro v hv; cases hv⟩
  | cons v rest ih =>
    cases hbreak : (!(target == "") && v == target) <;> cases hap : applied v
    · have hplan : planGo .up target applied (v :: rest)
          = v :: planGo .up target applied rest := by
        simp [planGo, hbreak, hap]
      rw [hplan]
      refine ⟨(ih.1).cons₂ v, ?_⟩
      intro w hw
      rcases List.mem_cons.mp hw with rfl | hw'
      · exact hap
      · exact ih.2 w hw'
    · have hplan : planGo .up target applied (v :: rest)
          = planGo .up target applied rest := by
        simp [planGo, hbreak, hap]
      rw [hplan]
      exact ⟨(ih.1).cons v, ih.2⟩
    · have hplan : planGo .up target applied (v :: rest) = [v] := by
        simp [planGo, hbreak, hap]
      rw [hplan]
      refine ⟨List.Sublist.cons₂ v (List.nil_sublist rest), ?_⟩
      intro w hw
      rcases List.mem_cons.mp hw with rfl | hw'
      · exact hap
      · cases hw'
    · have hplan : planGo .up target applied (v :: rest) = [] := by
        simp [planGo, hbreak, hap]
      rw [hplan]
      exact ⟨List.nil_sublist _, by intro w hw; cases hw⟩

/-- The down walk only emits applied versions and is a sublist of its
input. -/
theorem planGo_down_sublist (versions : List String) (target : String)
    (applied : String → Bool) :
    (planGo .down target applied versions).Sublist versions ∧
    ∀ v ∈ planGo .down target applied versions, applied v = true := by
  induction versions with
  | nil => exact ⟨.slnil, by intro v hv; cases hv⟩
  | cons v rest ih =>
    cases hbreak : (!(target == "") && v == target) <;> cases hap : applied v
    · have hplan : planGo .down target applied (v :: rest)
          = planGo .down target applied rest := by
        simp [planGo, hbreak, hap]
      rw [hplan]
      exact ⟨(ih.1).cons v, ih.2⟩
    · have hplan : planGo .down target applied (v :: rest)
          = v :: planGo .down target applied rest := by
        simp [planGo, hbreak, hap]
      rw [hplan]
      refine ⟨(ih.1).cons₂ v, ?_⟩
      intro w hw
      rcases List.mem_cons.mp hw with rfl | hw'
      · exact hap
      · exact ih.2 w hw'
    · have hplan : planGo .down target applied (v :: rest) = [] := by
        simp [planGo, hbreak, hap]
      rw [hplan]
      exact ⟨List.nil_sublist _, by intro w hw; cases hw⟩
    · have hplan : planGo .down target applied (v :: rest) = [v] := by
        simp [planGo, hbreak, hap]
      rw [hplan]
      refine ⟨List.Sublist.cons₂ v (List.nil_sublist rest), ?_⟩
      intro w hw
      rcases List.mem_cons.mp hw with rfl | hw'
      · exact hap
      · cases hw'

end EngineEss

/-! ## Record-collection operations -/

theorem mem_deleteOneRecord {l : List MigRecord} {r : MigRecord} {v : String}
    (hr : r ∈ l) (hne : r.version ≠ v) : r ∈ deleteOneRecord l v := by
  induction l with
  | nil => cases hr
  | cons q rest ih =>
    rcases List.mem_cons.mp hr with rfl | hr'
    · simp only [deleteOneRecord, if_neg hne]
      exact List.mem_cons_self ..
    · by_cases hq : q.version = v
      · simp only [deleteOneRecord, if_pos hq]
        exact hr'
      · simp only [deleteOneRecord, if_neg hq]
        exact List.mem_cons_of_mem _ (ih hr')

/-! ## Executor lemmas: the `mongo-migration-tool` engine -/

namespace EngineTool

theorem executeMigrationNoTx_events (env : Env) (m : Migration) (dir : Direction) (st : DB) :
    ∀ e ∈ (executeMigrationNoTx env m dir st).2.2, eventVersion e = some m.version := by
  intro e he
  cases dir
  · cases hb : env.bodyOk m.version Direction.up
    · simp [executeMigrationNoTx, hb] at he
      subst he; rfl
    · cases hr : env.recordOk m.version Direction.up <;>
        simp [executeMigrationNoTx, hb, hr] at he <;>
        rcases he with rfl | rfl <;> rfl
  · cases hb : env.bodyOk m.version Direction.down
    · simp [executeMigrationNoTx, hb] at he
      subst he; rfl
    · cases hr : env.recordOk m.version Direction.down <;>
        simp [executeMigrationNoTx, hb, hr] at he <;>
        rcases he with rfl | rfl <;> rfl

theorem executeMigration_events (env : Env) (m : Migration) (dir : Direction) (st : DB) :
    ∀ e ∈ (executeMigration env m dir st).2.2, eventVersion e = some m.version := by
  intro e he
  rcases htx : env.txResult m.version dir with _ | err
  · cases dir <;> simp [executeMigration, htx] at he <;>
      rcases he with rfl | rfl <;> rfl
  · by_cases hf : fallbackOnCode20 err = true
    · have hred : executeMigration env m dir st = executeMigrationNoTx env m dir st := by
        simp [executeMigration, htx, hf]
      rw [hred] at he
      exact executeMigrationNoTx_events env m dir st e he
    · simp [executeMigration, htx, hf] at he

theorem executeMigrationNoTx_preserves (env : Env) (m : Migration) (dir : Direction) (st : DB) :
    ∀ r ∈ st.records, r.version ≠ m.version →
      r ∈ (executeMigrationNoTx env m dir st).2.1.records := by
  intro r hr hne
  cases dir
  · cases hb : env.bodyOk m.version Direction.up
    · simpa [executeMigrationNoTx, hb] using hr
    · cases hrec : env.recordOk m.version Direction.up
      · simpa [executeMigrationNoTx, hb, hrec] using hr
      · simp [executeMigrationNoTx, hb, hrec]
        exact .inl hr
  · cases hb : env.bodyOk m.version Direction.down
    · simpa [executeMigrationNoTx, hb] using hr
    · cases hrec : env.recordOk m.version Direction.down
      · simpa [executeMigrationNoTx, hb, hrec] using hr
      · simp [executeMigrationNoTx, hb, hrec]
        exact mem_deleteOneRecord hr hne

theorem executeMigration_preserves (env : Env) (m : Migration) (dir : Direction) (st : DB) :
    ∀ r ∈ st.records, r.version ≠ m.version →
      r ∈ (executeMigration env m dir st).2.1.records := by
  intro r hr hne
  rcases htx : env.txResult m.version dir with _ | err
  · cases dir
    · simp [executeMigration, htx]
      exact .inl hr
    · simp [executeMigration, htx]
      exact mem_deleteOneRecord hr hne
  · by_cases hf : fallbackOnCode20 err = true
    · have hred : executeMigration env m dir st = executeMigrationNoTx env m dir st := by
        simp [executeMigration, htx, hf]
      rw [hred]
      exact executeMigrationNoTx_preserves env m dir st r hr hne
    · simpa [executeMigration, htx, hf] using hr

/-- A committed transactional step for the down direction. -/
theorem executeMigration_down_success (env : Env) (m : Migration) (st : DB)
    (htx : env.txResult m.version .down = none) :
    executeMigration env m .down st
      = (.ok (), { st with records := deleteOneRecord st.records m.version },
          [.revertMig m.version, .deleteRecord m.version]) := by
  simp [executeMigration, htx]

/-- Every event the execution loop emits is about a planned version. -/
theorem migrateLoop_events_version (env : Env) (migs : Registry)
    (applied : String → Option MigRecord) (dir : Direction) (hwf : RegWF migs) :
    ∀ (plan : List String) (st : DB),
      ∀ e ∈ (migrateLoop env migs applied dir plan st).2.2,
        ∃ v ∈ plan, eventVersion e = some v := by
  intro plan
  induction plan with
  | nil => intro st e he; simp [migrateLoop] at he
  | cons v rest ih =>
    intro st e he
    rcases hlk : lookupMig migs v with _ | m
    · simp [migrateLoop, hlk] at he
    · have hv : m.version = v := lookupMig_version hwf hlk
      rcases hg : checksumGuard env.sha dir (applied v) v m with err | u
      · simp [migrateLoop, hlk, hg] at he
      · rcases hex : executeMigration env m dir st with ⟨res, st', ev⟩
        have hev : ∀ e ∈ ev, eventVersion e = some m.version := by
          intro e' he'
          have := executeMigration_events env m dir st e'
          rw [hex] at this
          exact this he'
        cases res with
        | error err =>
            simp [migrateLoop, hlk, hg, hex] at he
            exact ⟨v, List.mem_cons_self .., hv ▸ hev e he⟩
        | ok u' =>
            simp [migrateLoop, hlk, hg, hex] at he
            rcases he with he | he
            · exact ⟨v, List.mem_cons_self .., hv ▸ hev e he⟩
            · rcases ih st' e he with ⟨w, hw, hwv⟩
              exact ⟨w, List.mem_cons_of_mem _ hw, hwv⟩

/-- Records whose version the plan never mentions survive the loop. -/
theorem migrateLoop_preserves (env : Env) (migs : Registry)
    (applied : String → Option MigRecord) (dir : Direction) (hwf : RegWF migs) :
    ∀ (plan : List String) (st : DB) (r : MigRecord),
      r ∈ st.records → r.version ∉ plan →
      r ∈ (migrateLoop env migs applied dir plan st).2.1.records := by
  intro plan
  induction plan with
  | nil => intro st r hr _; simpa [migrateLoop] using hr
  | cons v rest ih =>
    intro st r hr hnot
    have hne : r.version ≠ v := fun h => hnot (h ▸ List.mem_cons_self ..)
    have hnrest : r.version ∉ rest := fun h => hnot (List.mem_cons_of_mem _ h)
    rcases hlk : lookupMig migs v with _ | m
    · simpa [migrateLoop, hlk] using hr
    · have hv : m.version = v := lookupMig_version hwf hlk
      rcases hg : checksumGuard env.sha dir (applied v) v m with err | u

      · simpa [migrateLoop, hlk, hg] using hr
      · rcases hex : executeMigration env m dir st with ⟨res, st', ev⟩
        have hpres : r ∈ st'.records := by
          have := executeMigration_preserves env m dir st r hr (hv ▸ hne)
          rw [hex] at this
          exact this
        cases res with
        | error err => simpa [migrateLoop, hlk, hg, hex] using hpres
        | ok u' =>
            simp [migrateLoop, hlk, hg, hex]
            exact ih st' r hpres hnrest

/-- When every planned version is registered and its down transaction
commits, the loop succeeds and its event log is exactly the planned
revert/record-delete pairs in plan order. -/
theorem migrateLoop_down_success (env : Env) (migs : Registry)
    (applied : String → Option MigRecord) (hwf : RegWF migs) :
    ∀ (plan : List String) (st : DB),
      (∀ v ∈ plan, (lookupMig migs v).isSome ∧ env.txResult v .down = none) →
      (migrateLoop env migs applied .down plan st).1 = .ok () ∧
      (migrateLoop env migs applied .down plan st).2.2
        = plan.flatMap (fun v => [Event.revertMig v, Event.deleteRecord v]) := by
  intro plan
  induction plan with
  | nil => intro st _; simp [migrateLoop]
  | cons v rest ih =>
    intro st hall
    rcases hall v (List.mem_cons_self ..) with ⟨hsome, htx⟩
    rcases hlk : lookupMig migs v with _ | m
    · rw [hlk] at hsome; exact absurd hsome (by simp)
    · have hv : m.version = v := lookupMig_version hwf hlk
      have hg : checksumGuard env.sha .down (applied v) v m = .ok () := by
        simp [checksumGuard]
      have hex := executeMigration_down_success env m st (hv.symm ▸ htx)
      have ihres := ih { st with records := deleteOneRecord st.records m.version }
        (fun w hw => hall w (List.mem_cons_of_mem _ hw))
      rw [hv] at ihres
      refine ⟨?_, ?_⟩
      · simp [migrateLoop, hlk, hg, hex, hv, ihres.1]
      · simp [migrateLoop, hlk, hg, hex, hv, ihres.2]

end EngineTool

/-! ## Executor lemmas: the `mongo-essential` engine -/

namespace EngineEss

theorem perform_events (env : Env) (m : Migration) (dir : Direction) (st : DB) :
    ∀ e ∈ (perform env m dir st).2.2, eventVersion e = some m.version := by
  intro e he
  cases dir
  · cases hb : env.bodyOk m.version Direction.up
    · simp [perform, hb] at he
      subst he; rfl
    · cases hr : env.recordOk m.version Direction.up <;>
        simp [perform, hb, hr] at he <;>
        rcases he with rfl | rfl <;> rfl
  · cases hb : env.bodyOk m.version Direction.down
    · simp [perform, hb] at he
      subst he; rfl
    · cases hr : env.recordOk m.version Direction.down <;>
        simp [perform, hb, hr] at he <;>
        rcases he with rfl | rfl <;> rfl

theorem executeWithRetry_events (env : Env) (m : Migration) (dir : Direction) (st : DB) :
    ∀ e ∈ (executeWithRetry env m dir st).2.2, eventVersion e = some m.version := by
  intro e he
  rcases htx : env.txResult m.version dir with _ | err
  · cases dir <;> simp [executeWithRetry, htx] at he <;>
      rcases he with rfl | rfl <;> rfl
  · by_cases hf : isTransactionNotSupported err = true
    · have hred : executeWithRetry env m dir st = perform env m dir st := by
        simp [executeWithRetry, htx, hf]
      rw [hred] at he
      exact perform_events env m dir st e he
    · simp [executeWithRetry, htx, hf] at he

theorem perform_preserves (env : Env) (m : Migration) (dir : Direction) (st : DB) :
    ∀ r ∈ st.records, r.version ≠ m.version →
      r ∈ (perform env m dir st).2.1.records := by
  intro r hr hne
  cases dir
  · cases hb : env.bodyOk m.version Direction.up
    · simpa [perform, hb] using hr
    · cases hrec : env.recordOk m.version Direction.up
      · simpa [perform, hb, hrec] using hr
      · simp [perform, hb, hrec]
        exact .inl hr
  · cases hb : env.bodyOk m.version Direction.down
    · simpa [perform, hb] using hr
    · cases hrec : env.recordOk m.version Direction.down
      · simpa [perform, hb, hrec] using hr
      · simp [perform, hb, hrec]
        exact mem_deleteOneRecord hr hne

theorem executeWithRetry_preserves (env : Env) (m : Migration) (dir : Direction) (st : DB) :
    ∀ r ∈ st.records, r.version ≠ m.version →
      r ∈ (executeWithRetry env m dir st).2.1.records := by
  intro r hr hne
  rcases htx : env.txResult m.version dir with _ | err
  · cases dir
    · simp [executeWithRetry, htx]
      exact .inl hr
    · simp [executeWithRetry, htx]
      exact mem_deleteOneRecord hr hne
  · by_cases hf : isTransactionNotSupported err = true
    · have hred : executeWithRetry env m dir st = perform env m dir st := by
        simp [executeWithRetry, htx, hf]
      rw [hred]
      exact perform_preserves env m dir st r hr hne
    · simpa [executeWithRetry, htx, hf] using hr

/-- A committed transactional step for the up direction. -/
theorem executeWithRetry_up_success (env : Env) (m : Migration) (st : DB)
    (htx : env.txResult m.version .up = none) :
    executeWithRetry env m .up st
      = (.ok (), { st with records := st.records ++ [mkRecord env.sha env.now m] },
          [.applyMig m.version, .insertRecord m.version]) := by
  simp [executeWithRetry, htx]

/-- Every event the execution loop emits is about a planned version. -/
theorem runLoop_events_version (env : Env) (migs : Registry)
    (applied : String → Option MigRecord) (dir : Direction) (hwf : RegWF migs) :
    ∀ (plan : List String) (st : DB),
      ∀ e ∈ (runLoop env migs applied dir plan st).2.2,
        ∃ v ∈ plan, eventVersion e = some v := by
  intro plan
  induction plan with
  | nil => intro st e he; simp [runLoop] at he
  | cons v rest ih =>
    intro st e he
    rcases hlk : lookupMig migs v with _ | m
    · simp [runLoop, hlk] at he
    · have hv : m.version = v := lookupMig_version hwf hlk
      rcases hg : checksumGuard env.sha dir (applied v) m.version m with err | u
      · simp [runLoop, hlk, hg] at he
      · rcases hex : executeWithRetry env m dir st with ⟨res, st', ev⟩
        have hev : ∀ e ∈ ev, eventVersion e = some m.version := by
          intro e' he'
          have := executeWithRetry_events env m dir st e'
          rw [hex] at this
          exact this he'
        cases res with
        | error err =>
            simp [runLoop, hlk, hg, hex] at he
            exact ⟨v, List.mem_cons_self .., hv ▸ hev e he⟩
        | ok u' =>
            simp [runLoop, hlk, hg, hex] at he
            rcases he with he | he
            · exact ⟨v, List.mem_cons_self .., hv ▸ hev e he⟩
            · rcases ih st' e he with ⟨w, hw, hwv⟩
              exact ⟨w, List.mem_cons_of_mem _ hw, hwv⟩

/-- Records whose version the plan never mentions survive the loop. -/
theorem runLoop_preserves (env : Env) (migs : Registry)
    (applied : String → Option MigRecord) (dir : Direction) (hwf : RegWF migs) :
    ∀ (plan : List String) (st : DB) (r : MigRecord),
      r ∈ st.records → r.version ∉ plan →
      r ∈ (runLoop env migs applied dir plan st).2.1.records := by
  intro plan
  induction plan with
  | nil => intro st r hr _; simpa [runLoop] using hr
  | cons v rest ih =>
    intro st r hr hnot
    have hne : r.version ≠ v := fun h => hnot (h ▸ List.mem_cons_self ..)
    have hnrest : r.version ∉ rest := fun h => hnot (List.mem_cons_of_mem _ h)
    rcases hlk : lookupMig migs v with _ | m
    · simpa [runLoop, hlk] using hr
    · have hv : m.version = v := lookupMig_version hwf hlk
      rcases hg : checksumGuard env.sha dir (applied v) m.version m with err | u
      · simpa [runLoop, hlk, hg] using hr
      · rcases hex : executeWithRetry env m dir st with ⟨res, st', ev⟩
        have hpres : r ∈ st'.records := by
          have := executeWithRetry_preserves env m dir st r hr (hv ▸ hne)
          rw [hex] at this
          exact this
        cases res with
        | error err => simpa [runLoop, hlk, hg, hex] using hpres
        | ok u' =>
            simp [runLoop, hlk, hg, hex]
            exact ih st' r hpres hnrest

/-- When every planned version is registered, pending, and commits its up
transaction, the loop succeeds and its event log is exactly the planned
apply/record-insert pairs in plan order. -/
theorem runLoop_up_success (env : Env) (migs : Registry)
    (applied : String → Option MigRecord) (hwf : RegWF migs) :
    ∀ (plan : List String) (st : DB),
      (∀ v ∈ plan, (lookupMig migs v).isSome ∧ applied v = none ∧
        env.txResult v .up = none) →
      (runLoop env migs applied .up plan st).1 = .ok () ∧
      (runLoop env migs applied .up plan st).2.2
        = plan.flatMap (fun v => [Event.applyMig v, Event.insertRecord v]) := by
  intro plan
  induction plan with
  | nil => intro st _; simp [runLoop]
  | cons v rest ih =>
    intro st hall
    rcases hall v (List.mem_cons_self ..) with ⟨hsome, hpend, htx⟩
    rcases hlk : lookupMig migs v with _ | m
    · rw [hlk] at hsome; exact absurd hsome (by simp)
    · have hv : m.version = v := lookupMig_version hwf hlk
      have hg : checksumGuard env.sha .up (applied v) m.version m = .ok () := by
        simp [checksumGuard, hpend]
      have hex := executeWithRetry_up_success env m st (hv.symm ▸ htx)
      have ihres := ih { st with records := st.records ++ [mkRecord env.sha env.now m] }
        (fun w hw => hall w (List.mem_cons_of_mem _ hw))
      rw [hv] at hg
      refine ⟨?_, ?_⟩
      · simp [runLoop, hlk, hg, hex, hv, ihres.1]
      · simp [runLoop, hlk, hg, hex, hv, ihres.2]

/-- The loop never touches the lock document. -/
theorem runLoop_lockDoc (env : Env) (migs : Registry)
    (applied : String → Option MigRecord) (dir : Direction) :
    ∀ (plan : List String) (st : DB),
      (runLoop env migs applied dir plan st).2.1.lockDoc = st.lockDoc := by
  intro plan
  induction plan with
  | nil => intro st; simp [runLoop]
  | cons v rest ih =>
    intro st
    rcases hlk : lookupMig migs v with _ | m
    · simp [runLoop, hlk]
    · rcases hg : checksumGuard env.sha dir (applied v) m.version m with err | u
      · simp [runLoop, hlk, hg]
      · have hstep : ∀ st' : DB, (executeWithRetry env m dir st').2.1.lockDoc = st'.lockDoc := by
          intro st'
          rcases htx : env.txResult m.version dir with _ | err
          · cases dir <;> simp [executeWithRetry, htx]
          · by_cases hf : isTransactionNotSupported err = true
            · cases dir <;>
                cases hb : env.bodyOk m.version Direction.up <;>
                cases hb' : env.bodyOk m.version Direction.down <;>
                cases hr : env.recordOk m.version Direction.up <;>
                cases hr' : env.recordOk m.version Direction.down <;>
                simp [executeWithRetry, perform, htx, hf, hb, hb', hr, hr']
            · simp [executeWithRetry, htx, hf]
        rcases hex : executeWithRetry env m dir st with ⟨res, st', ev⟩
        have hld : st'.lockDoc = st.lockDoc := by
          have := hstep st
          rw [hex] at this
          exact this
        cases res with
        | error err => simp [runLoop, hlk, hg, hex, hld]
        | ok u' => simp [runLoop, hlk, hg, hex, ih st', hld]

/-- The loop never emits a lock event: all its events carry a version. -/
theorem runLoop_no_lock_delete (env : Env) (migs : Registry)
    (applied : String → Option MigRecord) (dir : Direction) :
    ∀ (plan : List String) (st : DB) (c : Ctx),
      Event.lockDelete c ∉ (runLoop env migs applied dir plan st).2.2 := by
  intro plan
  induction plan with
  | nil => intro st c h; simp [runLoop] at h
  | cons v rest ih =>
    intro st c h
    rcases hlk : lookupMig migs v with _ | m
    · simp [runLoop, hlk] at h
    · rcases hg : checksumGuard env.sha dir (applied v) m.version m with err | u
      · simp [runLoop, hlk, hg] at h
      · rcases hex : executeWithRetry env m dir st with ⟨res, st', ev⟩
        have hev : Event.lockDelete c ∉ ev := by
          intro hmem
          have := executeWithRetry_events env m dir st (Event.lockDelete c)
          rw [hex] at this
          exact Option.noConfusion (this hmem)
        cases res with
        | error err =>
            simp [runLoop, hlk, hg, hex] at h
            exact hev h
        | ok u' =>
            simp [runLoop, hlk, hg, hex] at h
            rcases h with h | h
            · exact hev h
            · exact ih st' c h

/-- The fallback pair only consults the hash, clock, body and record-write
oracles. -/
theorem perform_env_agnostic (e₁ e₂ : Env) (m : Migration) (dir : Direction) (st : DB)
    (hsha : e₁.sha = e₂.sha) (hnow : e₁.now = e₂.now)
    (hbody : e₁.bodyOk = e₂.bodyOk) (hrec : e₁.recordOk = e₂.recordOk) :
    perform e₁ m dir st = perform e₂ m dir st := by
  cases dir <;>
    cases hb : e₂.bodyOk m.version Direction.up <;>
    cases hb' : e₂.bodyOk m.version Direction.down <;>
    cases hr : e₂.recordOk m.version Direction.up <;>
    cases hr' : e₂.recordOk m.version Direction.down <;>
    simp [perform, hsha, hnow, hbody, hrec, hb, hb', hr, hr']

/-- The executor only consults the hash, clock, transaction, body and
record-write oracles. -/
theorem executeWithRetry_env_agnostic (e₁ e₂ : Env) (m : Migration) (dir : Direction)
    (st : DB) (hsha : e₁.sha = e₂.sha) (hnow : e₁.now = e₂.now)
    (htx : e₁.txResult = e₂.txResult)
    (hbody : e₁.bodyOk = e₂.bodyOk) (hrec : e₁.recordOk = e₂.recordOk) :
    executeWithRetry e₁ m dir st = executeWithRetry e₂ m dir st := by
  rcases h : e₂.txResult m.version dir with _ | err
  · have h₁ : e₁.txResult m.version dir = none := by rw [htx, h]
    cases dir <;> simp [executeWithRetry, h, h₁, hsha, hnow]
  · have h₁ : e₁.txResult m.version dir = some err := by rw [htx, h]
    by_cases hf : isTransactionNotSupported err = true
    · simp only [executeWithRetry, h, h₁, hf, if_pos]
      exact perform_env_agnostic e₁ e₂ m dir st hsha hnow hbody hrec
    · simp [executeWithRetry, h, h₁, hf]

/-- The loop only consults the hash, clock, transaction, body and
record-write oracles — in particular it is oblivious to the release flag. -/
theorem runLoop_env_agnostic (e₁ e₂ : Env) (migs : Registry)
    (applied : String → Option MigRecord) (dir : Direction)
    (hsha : e₁.sha = e₂.sha) (hnow : e₁.now = e₂.now)
    (htx : e₁.txResult = e₂.txResult)
    (hbody : e₁.bodyOk = e₂.bodyOk) (hrec : e₁.recordOk = e₂.recordOk) :
    ∀ (plan : List String) (st : DB),
      runLoop e₁ migs applied dir plan st = runLoop e₂ migs applied dir plan st := by
  intro plan
  induction plan with
  | nil => intro st; rfl
  | cons v rest ih =>
    intro st
    rcases hlk : lookupMig migs v with _ | m
    · simp [runLoop, hlk]
    · have hstep := executeWithRetry_env_agnostic e₁ e₂ m dir st hsha hnow htx hbody hrec
      rcases hg : checksumGuard e₂.sha dir (applied v) m.version m with err | u
      · have hg₁ : checksumGuard e₁.sha dir (applied v) m.version m = .error err := by
          rw [hsha, hg]
        simp [runLoop, hlk, hg, hg₁]
      · have hg₁ : checksumGuard e₁.sha dir (applied v) m.version m = .ok u := by
          rw [hsha, hg]
        rcases hex : executeWithRetry e₂ m dir st with ⟨res, st', ev⟩
        cases res with
        | error err => simp [runLoop, hlk, hg, hg₁, hstep, hex]
        | ok u' => simp [runLoop, hlk, hg, hg₁, hstep, hex, ih st']

end EngineEss

/-! ## Event-sequence helpers and concrete fixtures -/

theorem revertSeq_pairs (plan : List String) :
    revertSeq (plan.flatMap (fun v => [Event.revertMig v, Event.deleteRecord v])) = plan := by
  induction plan with
  | nil => rfl
  | cons v rest ih =>
    simp only [List.flatMap_cons, revertSeq, List.filterMap_append] at ih ⊢
    simp [List.filterMap_cons, ih]

theorem applySeq_pairs (plan : List String) :
    applySeq (plan.flatMap (fun v => [Event.applyMig v, Event.insertRecord v])) = plan := by
  induction plan with
  | nil => rfl
  | cons v rest ih =>
    simp only [List.flatMap_cons, applySeq, List.filterMap_append] at ih ⊢
    simp [List.filterMap_cons, ih]

theorem applySeq_append (l₁ l₂ : List Event) :
    applySeq (l₁ ++ l₂) = applySeq l₁ ++ applySeq l₂ := by
  simp [applySeq, List.filterMap_append]

theorem revertSeq_append (l₁ l₂ : List Event) :
    revertSeq (l₁ ++ l₂) = revertSeq l₁ ++ revertSeq l₂ := by
  simp [revertSeq, List.filterMap_append]

/-- A concrete stand-in for the SHA-256 hex oracle used in witnesses. -/
def shaFix : String → String := fun s => "sha:" ++ s

/-- An all-success oracle: every driver call and migration body succeeds. -/
def envOk : Env :=
  { sha := shaFix
    now := 7
    findErr := none
    lockInsertResult := none
    txResult := fun _ _ => none
    bodyOk := fun _ _ => true
    recordOk := fun _ _ => true
    forceWriteErr := none
    releaseOk := true }

/-- A plain caller context. -/
def ctx0 : Ctx := ⟨false⟩

/-- Fixture migrations and registry with two versions. -/
def migFixA : Migration := ⟨"20240101_001", "users"⟩

def migFixB : Migration := ⟨"20240101_002", "indexes"⟩

def regFix : Registry := [("20240101_001", migFixA), ("20240101_002", migFixB)]

/-- Fixture records for both versions (checksums as `shaFix` computes them). -/
def recFixA : MigRecord :=
  ⟨"20240101_001", "users", 1, shaFix "20240101_001:users"⟩

def recFixB : MigRecord :=
  ⟨"20240101_002", "indexes", 2, shaFix "20240101_002:indexes"⟩

/-- A database in which both fixture versions are applied, no lock held. -/
def dbBoth : DB := ⟨[recFixA, recFixB], none⟩

/-! ## Claim C1 -/

/-- C1 counterexample: the claim fails on the second engine.  With versions
`20240101_001` and `20240101_002` both applied, `Down(target=20240101_001)`
*does* invoke the target's revert and deletes its record: `planExecution`
appends the version before evaluating the break (part_030 lines 571-584). -/
theorem C1_counterexample :
    Event.revertMig "20240101_001" ∈
      (EngineEss.Down envOk ctx0 regFix "20240101_001" dbBoth).2.2 ∧
    ∀ r ∈ (EngineEss.Down envOk ctx0 regFix "20240101_001" dbBoth).2.1.records,
      r.version ≠ "20240101_001" := by decide

/-- C1 (amended): for the first engine (`getMigrationsForDown`/`migrate`),
with a registered, applied, non-empty target V, `Down(target=V)` plans and
reverts exactly the applied registered versions strictly greater than V in
descending order; V's revert is never invoked, V's record is never deleted,
and every record carrying V survives the run.  (The second engine also
reverts V itself — see the counterexample — and an applied but unregistered
target stops neither engine's walk.) -/
theorem C1_down_excludes_target
    (env : Env) (ctx : Ctx) (migs : Registry) (mc target : String) (st : DB)
    (hnd : (regKeys migs).Nodup) (hwf : RegWF migs)
    (hlock : env.lockInsertResult = none) (hfind : env.findErr = none)
    (hsucc : ∀ v, env.txResult v Direction.down = none)
    (htmem : target ∈ regKeys migs) (hne : target ≠ "")
    (happ : (buildAppliedMap st.records target).isSome = true) :
    EngineTool.getMigrationsToExecute migs .down target
        (fun v => (buildAppliedMap st.records v).isSome)
      = ((EngineTool.getSortedVersions migs).filter
          (fun v => (buildAppliedMap st.records v).isSome && sLt target v)).reverse ∧
    (EngineTool.Down env ctx migs mc target st).1 = .ok () ∧
    revertSeq (EngineTool.Down env ctx migs mc target st).2.2
      = ((EngineTool.getSortedVersions migs).filter
          (fun v => (buildAppliedMap st.records v).isSome && sLt target v)).reverse ∧
    Event.revertMig target ∉ (EngineTool.Down env ctx migs mc target st).2.2 ∧
    Event.deleteRecord target ∉ (EngineTool.Down env ctx migs mc target st).2.2 ∧
    (∀ r ∈ st.records, r.version = target →
      r ∈ (EngineTool.Down env ctx migs mc target st).2.1.records) := by
  have hsorted := sortStrings_pairwise_sLt hnd
  have hplan : EngineTool.getMigrationsToExecute migs .down target
      (fun v => (buildAppliedMap st.records v).isSome)
      = ((EngineTool.getSortedVersions migs).filter
          (fun v => (buildAppliedMap st.records v).isSome && sLt target v)).reverse :=
    EngineTool.getMigrationsForDown_char hsorted (mem_sortStrings.mpr htmem) hne happ
  have htnotplan : target ∉ EngineTool.getMigrationsToExecute migs .down target
      (fun v => (buildAppliedMap st.records v).isSome) := by
    rw [hplan]
    intro hmem
    rw [List.mem_reverse, List.mem_filter] at hmem
    have h2 := hmem.2
    rw [sLt_irrefl] at h2
    simp at h2
  have hsub : ∀ v ∈ EngineTool.getMigrationsToExecute migs .down target
      (fun v => (buildAppliedMap st.records v).isSome),
      (lookupMig migs v).isSome = true ∧ env.txResult v Direction.down = none := by
    intro v hv
    rw [hplan, List.mem_reverse, List.mem_filter] at hv
    exact ⟨lookupMig_isSome.mpr (mem_sortStrings.mp hv.1), hsucc v⟩
  have hloop := EngineTool.migrateLoop_down_success env migs
    (buildAppliedMap st.records) hwf
    (EngineTool.getMigrationsToExecute migs .down target
      (fun v => (buildAppliedMap st.records v).isSome))
    { st with lockDoc := some env.now } hsub
  have hacq : EngineTool.acquireLock env ctx mc st
      = (.ok (), { st with lockDoc := some env.now },
         [Event.ensureIndex (EngineTool.lockCollection mc) ⟨"lock_id", true, none⟩,
          Event.lockInsert ctx]) := by
    simp [EngineTool.acquireLock, hlock]
  have hDown : EngineTool.Down env ctx migs mc target st
      = ((EngineTool.migrateLoop env migs (buildAppliedMap st.records) .down
            (EngineTool.getMigrationsToExecute migs .down target
              (fun v => (buildAppliedMap st.records v).isSome))
            { st with lockDoc := some env.now }).1,
         (if env.releaseOk then
            { (EngineTool.migrateLoop env migs (buildAppliedMap st.records) .down
                (EngineTool.getMigrationsToExecute migs .down target
                  (fun v => (buildAppliedMap st.records v).isSome))
                { st with lockDoc := some env.now }).2.1 with lockDoc := none }
          else
            (EngineTool.migrateLoop env migs (buildAppliedMap st.records) .down
                (EngineTool.getMigrationsToExecute migs .down target
                  (fun v => (buildAppliedMap st.records v).isSome))
                { st with lockDoc := some env.now }).2.1),
         [Event.ensureIndex (EngineTool.lockCollection mc) ⟨"lock_id", true, none⟩,
          Event.lockInsert ctx]
           ++ (EngineTool.migrateLoop env migs (buildAppliedMap st.records) .down
                (EngineTool.getMigrationsToExecute migs .down target
                  (fun v => (buildAppliedMap st.records v).isSome))
                { st with lockDoc := some env.now }).2.2
           ++ [Event.lockDelete Ctx.background]) := by
    simp [EngineTool.Down, EngineTool.migrate, hacq, hfind, EngineTool.releaseLock]
  refine ⟨hplan, ?_, ?_, ?_, ?_, ?_⟩
  · rw [hDown]
    exact hloop.1
  · rw [hDown]
    simp only [revertSeq_append]
    rw [hloop.2, revertSeq_pairs, hplan]
    simp [revertSeq]
  · rw [hDown, hloop.2]
    intro hmem
    rcases List.mem_append.mp hmem with hmem' | h3
    · rcases List.mem_append.mp hmem' with h1 | h2
      · rcases List.mem_cons.mp h1 with h | h
        · exact Event.noConfusion h
        · rcases List.mem_cons.mp h with h' | h'
          · exact Event.noConfusion h'
          · cases h'
      · rcases List.mem_flatMap.mp h2 with ⟨w, hw, hmem''⟩
        rcases List.mem_cons.mp hmem'' with heq | hmem'''
        · cases heq
          exact htnotplan hw
        · rcases List.mem_cons.mp hmem''' with heq | h0
          · exact Event.noConfusion heq
          · cases h0
    · rcases List.mem_cons.mp h3 with h | h
      · exact Event.noConfusion h
      · cases h
  · rw [hDown, hloop.2]
    intro hmem
    rcases List.mem_append.mp hmem with hmem' | h3
    · rcases List.mem_append.mp hmem' with h1 | h2
      · rcases List.mem_cons.mp h1 with h | h
        · exact Event.noConfusion h
        · rcases List.mem_cons.mp h with h' | h'
          · exact Event.noConfusion h'
          · cases h'
      · rcases List.mem_flatMap.mp h2 with ⟨w, hw, hmem''⟩
        rcases List.mem_cons.mp hmem'' with heq | hmem'''
        · exact Event.noConfusion heq
        · rcases List.mem_cons.mp hmem''' with heq | h0
          · cases heq
            exact htnotplan hw
          · cases h0
    · rcases List.mem_cons.mp h3 with h | h
      · exact Event.noConfusion h
      · cases h
  · intro r hr hver
    have hnotplan : r.version ∉ EngineTool.getMigrationsToExecute migs .down target
        (fun v => (buildAppliedMap st.records v).isSome) := by
      rw [hver]
      exact htnotplan
    have hpres := EngineTool.migrateLoop_preserves env migs
      (buildAppliedMap st.records) .down hwf
      (EngineTool.getMigrationsToExecute migs .down target
        (fun v => (buildAppliedMap st.records v).isSome))
      { st with lockDoc := some env.now } r hr hnotplan
    rw [hDown]
    cases env.releaseOk <;> simpa using hpres

/-- Witness for C1 at a concrete two-version registry with both versions
applied and target `20240101_001`. -/
theorem C1_down_excludes_target_witness :
    ((regKeys regFix).Nodup ∧ RegWF regFix ∧
      envOk.lockInsertResult = none ∧ envOk.findErr = none ∧
      (∀ v, envOk.txResult v Direction.down = none) ∧
      "20240101_001" ∈ regKeys regFix ∧ "20240101_001" ≠ "" ∧
      (buildAppliedMap dbBoth.records "20240101_001").isSome = true) ∧
    (EngineTool.getMigrationsToExecute regFix .down "20240101_001"
        (fun v => (buildAppliedMap dbBoth.records v).isSome)
      = ((EngineTool.getSortedVersions regFix).filter
          (fun v => (buildAppliedMap dbBoth.records v).isSome && sLt "20240101_001" v)).reverse ∧
    (EngineTool.Down envOk ctx0 regFix "schema_migrations" "20240101_001" dbBoth).1 = .ok () ∧
    revertSeq (EngineTool.Down envOk ctx0 regFix "schema_migrations" "20240101_001" dbBoth).2.2
      = ((EngineTool.getSortedVersions regFix).filter
          (fun v => (buildAppliedMap dbBoth.records v).isSome && sLt "20240101_001" v)).reverse ∧
    Event.revertMig "20240101_001" ∉
      (EngineTool.Down envOk ctx0 regFix "schema_migrations" "20240101_001" dbBoth).2.2 ∧
    Event.deleteRecord "20240101_001" ∉
      (EngineTool.Down envOk ctx0 regFix "schema_migrations" "20240101_001" dbBoth).2.2 ∧
    (∀ r ∈ dbBoth.records, r.version = "20240101_001" →
      r ∈ (EngineTool.Down envOk ctx0 regFix "schema_migrations" "20240101_001" dbBoth).2.1.records)) :=
  ⟨⟨by decide, by decide, rfl, rfl, fun _ => rfl, by decide, by decide, by decide⟩,
   C1_down_excludes_target envOk ctx0 regFix "schema_migrations" "20240101_001" dbBoth
     (by decide) (by decide) rfl rfl (fun _ => rfl) (by decide) (by decide) (by decide)⟩

/-! ## Claim C2 -/

/-- A database in which only `20240101_001` is applied. -/
def dbOnlyA : DB := ⟨[recFixA], none⟩

/-- C2 counterexample: the claim fails on the first engine.  With
`20240101_001` already applied and `20240101_002` pending,
`Up(target=20240101_001)` applies `20240101_002 > target`: the stop check of
`getMigrationsForUp` (part_030 lines 342-353) is only evaluated for pending
versions, so an applied target never stops the walk. -/
theorem C2_counterexample :
    Event.applyMig "20240101_002" ∈
      (EngineTool.Up envOk ctx0 regFix "schema_migrations" "20240101_001" dbOnlyA).2.2 ∧
    sLt "20240101_001" "20240101_002" = true := by decide

/-- C2 (amended): for the second engine (`planExecution`/`run`), with a
*registered* non-empty target V, `Up(target=V)` plans and applies exactly the
pending versions `≤ V` in ascending order — also when V itself is already
applied; with an empty target it applies all pending versions.  (The first
engine walks past an already-applied target — see the counterexample — and
an unregistered target stops neither engine, so all pending versions run.) -/
theorem C2_up_to_target
    (env : Env) (ctx : Ctx) (migs : Registry) (target : String) (st : DB)
    (hnd : (regKeys migs).Nodup) (hwf : RegWF migs)
    (hlock : env.lockInsertResult = none) (hfind : env.findErr = none)
    (hsucc : ∀ v, env.txResult v Direction.up = none) :
    (target ∈ regKeys migs → target ≠ "" →
      EngineEss.planExecution migs .up target
          (fun v => (buildAppliedMap st.records v).isSome)
        = (EngineEss.getSortedVersions migs).filter
            (fun v => !(buildAppliedMap st.records v).isSome && sLe v target) ∧
      (EngineEss.Up env ctx migs target st).1 = .ok () ∧
      applySeq (EngineEss.Up env ctx migs target st).2.2
        = (EngineEss.getSortedVersions migs).filter
            (fun v => !(buildAppliedMap st.records v).isSome && sLe v target) ∧
      (∀ v ∈ applySeq (EngineEss.Up env ctx migs target st).2.2,
        sLe v target = true ∧ buildAppliedMap st.records v = none)) ∧
    (target = "" →
      EngineEss.planExecution migs .up target
          (fun v => (buildAppliedMap st.records v).isSome)
        = (EngineEss.getSortedVersions migs).filter
            (fun v => !(buildAppliedMap st.records v).isSome) ∧
      (EngineEss.Up env ctx migs target st).1 = .ok () ∧
      applySeq (EngineEss.Up env ctx migs target st).2.2
        = (EngineEss.getSortedVersions migs).filter
            (fun v => !(buildAppliedMap st.records v).isSome)) := by
  have hsorted := sortStrings_pairwise_sLt hnd
  have hassemble : ∀ (plan : List String),
      plan = EngineEss.planExecution migs .up target
        (fun v => (buildAppliedMap st.records v).isSome) →
      (∀ v ∈ plan, (buildAppliedMap st.records v).isSome = false ∧
        v ∈ regKeys migs) →
      (EngineEss.Up env ctx migs target st).1 = .ok () ∧
      applySeq (EngineEss.Up env ctx migs target st).2.2 = plan := by
    intro plan hplaneq hmem
    have hall : ∀ v ∈ plan, (lookupMig migs v).isSome = true ∧
        buildAppliedMap st.records v = none ∧ env.txResult v Direction.up = none := by
      intro v hv
      refine ⟨lookupMig_isSome.mpr (hmem v hv).2, ?_, hsucc v⟩
      rcases h : buildAppliedMap st.records v with _ | r
      · rfl
      · have := (hmem v hv).1
        rw [h] at this
        simp at this
    have hloop := EngineEss.runLoop_up_success env migs
      (buildAppliedMap st.records) hwf plan { st with lockDoc := some env.now }
      hall
    have hacq : EngineEss.acquireLock env ctx st
        = (.ok (), { st with lockDoc := some env.now },
           [Event.ensureIndex EngineEss.collLock EngineEss.ttlIndex,
            Event.ensureIndex EngineEss.collLock EngineEss.uniqueLockIndex,
            Event.lockInsert ctx]) := by
      simp [EngineEss.acquireLock, hlock]
    have hUp : EngineEss.Up env ctx migs target st
        = ((EngineEss.runLoop env migs (buildAppliedMap st.records) .up plan
              { st with lockDoc := some env.now }).1,
           (if env.releaseOk then
              { (EngineEss.runLoop env migs (buildAppliedMap st.records) .up plan
                  { st with lockDoc := some env.now }).2.1 with lockDoc := none }
            else
              (EngineEss.runLoop env migs (buildAppliedMap st.records) .up plan
                  { st with lockDoc := some env.now }).2.1),
           [Event.ensureIndex EngineEss.collLock EngineEss.ttlIndex,
            Event.ensureIndex EngineEss.collLock EngineEss.uniqueLockIndex,
            Event.lockInsert ctx]
             ++ (EngineEss.runLoop env migs (buildAppliedMap st.records) .up plan
                  { st with lockDoc := some env.now }).2.2
             ++ [Event.lockDelete Ctx.background]) := by
      rw [hplaneq]
      simp [EngineEss.Up, EngineEss.run, hacq, hfind, EngineEss.releaseLock]
    refine ⟨?_, ?_⟩
    · rw [hUp]
      exact hloop.1
    · rw [hUp]
      simp only [applySeq_append]
      rw [hloop.2, applySeq_pairs]
      simp [applySeq]
  constructor
  · intro htmem hne
    have hplan : EngineEss.planExecution migs .up target
        (fun v => (buildAppliedMap st.records v).isSome)
        = (EngineEss.getSortedVersions migs).filter
            (fun v => !(buildAppliedMap st.records v).isSome && sLe v target) :=
      EngineEss.planGo_up_char hsorted (mem_sortStrings.mpr htmem) hne
    have hmem : ∀ v ∈ (EngineEss.getSortedVersions migs).filter
        (fun v => !(buildAppliedMap st.records v).isSome && sLe v target),
        (buildAppliedMap st.records v).isSome = false ∧ v ∈ regKeys migs := by
      intro v hv
      rw [List.mem_filter] at hv
      refine ⟨?_, mem_sortStrings.mp hv.1⟩
      have := hv.2
      cases h : (buildAppliedMap st.records v).isSome
      · rfl
      · rw [h] at this
        simp at this
    have hres := hassemble _ hplan.symm (fun v hv => hmem v hv)
    refine ⟨hplan, hres.1, hres.2, ?_⟩
    intro v hv
    rw [hres.2] at hv
    have h := hmem v hv
    have hp := (List.mem_filter.mp hv).2
    simp only [Bool.and_eq_true] at hp
    refine ⟨hp.2, ?_⟩
    rcases hr : buildAppliedMap st.records v with _ | r
    · rfl
    · have h1 := h.1
      rw [hr] at h1
      simp at h1
  · intro hte
    subst hte
    have hplan : EngineEss.planExecution migs .up ""
        (fun v => (buildAppliedMap st.records v).isSome)
        = (EngineEss.getSortedVersions migs).filter
            (fun v => !(buildAppliedMap st.records v).isSome) :=
      EngineEss.planGo_up_no_stop (by intro v _ h; exact h.1 rfl)
    have hmem : ∀ v ∈ (EngineEss.getSortedVersions migs).filter
        (fun v => !(buildAppliedMap st.records v).isSome),
        (buildAppliedMap st.records v).isSome = false ∧ v ∈ regKeys migs := by
      intro v hv
      rw [List.mem_filter] at hv
      refine ⟨?_, mem_sortStrings.mp hv.1⟩
      have := hv.2
      cases h : (buildAppliedMap st.records v).isSome
      · rfl
      · rw [h] at this
        simp at this
    have hres := hassemble _ hplan.symm (fun v hv => hmem v hv)
    exact ⟨hplan, hres.1, hres.2⟩

/-- Witness for C2: a concrete run over the fixture registry with
`20240101_001` applied and target `20240101_002` (registered, pending). -/
theorem C2_up_to_target_witness :
    ((regKeys regFix).Nodup ∧ RegWF regFix ∧
      envOk.lockInsertResult = none ∧ envOk.findErr = none ∧
      (∀ v, envOk.txResult v Direction.up = none) ∧
      "20240101_002" ∈ regKeys regFix ∧ "20240101_002" ≠ "") ∧
    (EngineEss.Up envOk ctx0 regFix "20240101_002" dbOnlyA).1 = .ok () ∧
    applySeq (EngineEss.Up envOk ctx0 regFix "20240101_002" dbOnlyA).2.2
      = (EngineEss.getSortedVersions regFix).filter
          (fun v => !(buildAppliedMap dbOnlyA.records v).isSome && sLe v "20240101_002") :=
  ⟨⟨by decide, by decide, rfl, rfl, fun _ => rfl, by decide, by decide⟩,
   by
    have h := (C2_up_to_target envOk ctx0 regFix "20240101_002" dbOnlyA
      (by decide) (by decide) rfl rfl (fun _ => rfl)).1 (by decide) (by decide)
    exact ⟨h.2.1, h.2.2.1⟩⟩

/-! ## Claim C3 -/

/-- A re-registered `20240101_002` with a new description ("indexes v2"). -/
def migFixB2 : Migration := ⟨"20240101_002", "indexes v2"⟩

/-- Registry holding only the modified `20240101_002`. -/
def regTampered : Registry := [("20240101_002", migFixB2)]

/-- A stored record for `20240101_002` whose checksum was tampered with. -/
def recTampered : MigRecord := ⟨"20240101_002", "indexes", 2, "deadbeef"⟩

/-- Database containing only the tampered record. -/
def dbTampered : DB := ⟨[recTampered], none⟩

/-- C3, evaluated at the failing input (spec scenario S3): the stored checksum
`"deadbeef"` differs from the live checksum of the registered
`20240101_002`, yet `Up("")` *succeeds* on both engines, invokes no `apply`,
and leaves the records untouched.  The up planner excludes every version that
already has a record, so the checksum comparison in the run loop
(part_030 lines 223-232 and 522-528) can never fire in a sequential run, and
tampering is silently skipped instead of failing. -/
theorem C3_checksum_guard_unreachable :
    "deadbeef" ≠ calculateChecksum envOk.sha migFixB2 ∧
    (EngineEss.Up envOk ctx0 regTampered "" dbTampered).1 = .ok () ∧
    applySeq (EngineEss.Up envOk ctx0 regTampered "" dbTampered).2.2 = [] ∧
    (EngineEss.Up envOk ctx0 regTampered "" dbTampered).2.1.records = dbTampered.records ∧
    (EngineTool.Up envOk ctx0 regTampered "schema_migrations" "" dbTampered).1 = .ok () ∧
    applySeq (EngineTool.Up envOk ctx0 regTampered "schema_migrations" "" dbTampered).2.2 = [] ∧
    (EngineTool.Up envOk ctx0 regTampered "schema_migrations" "" dbTampered).2.1.records
      = dbTampered.records :=
  ⟨by decide, rfl, rfl, rfl, rfl, rfl, rfl⟩

/-! ## Claim C4 -/

/-- C4 counterexample: the claim fails on the first engine.  `Force` there
(part_030 lines 159-185) performs an unconditional `ReplaceOne` upsert: on a
version that already has a record it reports success but *replaces* the
stored record (fresh `applied_at`, recomputed checksum) instead of leaving it
unchanged. -/
theorem C4_counterexample :
    (EngineTool.Force envOk regFix "20240101_001" dbOnlyA).1 = .ok () ∧
    (EngineTool.Force envOk regFix "20240101_001" dbOnlyA).2.1.records
      ≠ dbOnlyA.records :=
  ⟨rfl, by decide⟩

/-- C4 (amended): neither engine's `Force` ever invokes `apply` or `revert`,
and both fail with a not-found error, writing nothing, when the version is
unregistered.  The second engine's `Force` is a no-op returning success when
the version already has a record, and otherwise inserts a fresh record with
the migration's description, timestamp and checksum; the first engine's
`Force` instead always replaces-or-inserts a fresh record, even when one
exists. -/
theorem C4_force (env : Env) (migs : Registry) (version : String) (st : DB) :
    (applySeq (EngineEss.Force env migs version st).2.2 = [] ∧
      revertSeq (EngineEss.Force env migs version st).2.2 = []) ∧
    (applySeq (EngineTool.Force env migs version st).2.2 = [] ∧
      revertSeq (EngineTool.Force env migs version st).2.2 = []) ∧
    (lookupMig migs version = none →
      (EngineEss.Force env migs version st).1 = .error (.notFound version) ∧
      (EngineEss.Force env migs version st).2.1 = st ∧
      (EngineTool.Force env migs version st).1 = .error (.notFound version) ∧
      (EngineTool.Force env migs version st).2.1 = st) ∧
    (∀ m, lookupMig migs version = some m → env.findErr = none →
      (buildAppliedMap st.records version).isSome = true →
      (EngineEss.Force env migs version st).1 = .ok () ∧
      (EngineEss.Force env migs version st).2.1 = st) ∧
    (∀ m, lookupMig migs version = some m → env.findErr = none →
      buildAppliedMap st.records version = none → env.forceWriteErr = none →
      (EngineEss.Force env migs version st).1 = .ok () ∧
      (EngineEss.Force env migs version st).2.1.records
        = st.records ++ [mkRecord env.sha env.now m]) ∧
    (∀ m, lookupMig migs version = some m → env.forceWriteErr = none →
      (EngineTool.Force env migs version st).1 = .ok () ∧
      (EngineTool.Force env migs version st).2.1.records
        = replaceOneUpsert st.records version (mkRecord env.sha env.now m)) := by
  have hEssEvents : (EngineEss.Force env migs version st).2.2 = []
      ∨ (EngineEss.Force env migs version st).2.2 = [.insertRecord version] := by
    rcases hlk : lookupMig migs version with _ | m
    · exact .inl (by simp [EngineEss.Force, hlk])
    · rcases hf : env.findErr with _ | msg
      · by_cases happ : (buildAppliedMap st.records version).isSome = true
        · exact .inl (by simp [EngineEss.Force, hlk, hf, happ])
        · rcases hw : env.forceWriteErr with _ | msg'
          · exact .inr (by simp [EngineEss.Force, hlk, hf, happ, hw])
          · exact .inr (by simp [EngineEss.Force, hlk, hf, happ, hw])
      · exact .inl (by simp [EngineEss.Force, hlk, hf])
  have hToolEvents : (EngineTool.Force env migs version st).2.2 = []
      ∨ (EngineTool.Force env migs version st).2.2 = [.replaceRecord version] := by
    rcases hlk : lookupMig migs version with _ | m
    · exact .inl (by simp [EngineTool.Force, hlk])
    · rcases hw : env.forceWriteErr with _ | msg'
      · exact .inr (by simp [EngineTool.Force, hlk, hw])
      · exact .inr (by simp [EngineTool.Force, hlk, hw])
  refine ⟨?_, ?_, ?_, ?_, ?_, ?_⟩
  · rcases hEssEvents with h | h <;> simp [h, applySeq, revertSeq]
  · rcases hToolEvents with h | h <;> simp [h, applySeq, revertSeq]
  · intro hlk
    refine ⟨?_, ?_, ?_, ?_⟩ <;> simp [EngineEss.Force, EngineTool.Force, hlk]
  · intro m hlk hf happ
    constructor <;> simp [EngineEss.Force, hlk, hf, happ]
  · intro m hlk hf happ hw
    constructor <;> simp [EngineEss.Force, hlk, hf, happ, hw]
  · intro m hlk hw
    constructor <;> simp [EngineTool.Force, hlk, hw]

/-- Witness for C4: the no-op path on an applied version, and the not-found
path on an unregistered version, both at concrete inputs. -/
theorem C4_force_witness :
    (lookupMig regFix "20240101_001" = some migFixA ∧
      envOk.findErr = none ∧
      (buildAppliedMap dbOnlyA.records "20240101_001").isSome = true ∧
      (EngineEss.Force envOk regFix "20240101_001" dbOnlyA).1 = .ok () ∧
      (EngineEss.Force envOk regFix "20240101_001" dbOnlyA).2.1 = dbOnlyA) ∧
    (lookupMig regFix "20240101_009" = none ∧
      (EngineEss.Force envOk regFix "20240101_009" dbOnlyA).1
        = .error (.notFound "20240101_009") ∧
      (EngineTool.Force envOk regFix "20240101_009" dbOnlyA).1
        = .error (.notFound "20240101_009")) :=
  ⟨⟨by decide, rfl, by decide,
    (C4_force envOk regFix "20240101_001" dbOnlyA).2.2.2.1 migFixA (by decide) rfl (by decide)⟩,
   ⟨by decide,
    ((C4_force envOk regFix "20240101_009" dbOnlyA).2.2.1 (by decide)).1,
    ((C4_force envOk regFix "20240101_009" dbOnlyA).2.2.1 (by decide)).2.2.1⟩⟩

/-! ## Claim C5 -/

/-- C5 counterexample: the claim fails on the second engine.  Its `GetStatus`
(part_030 lines 446-468) iterates only `e.getSortedVersions()` — the registry
keys — so with `20240101_002` registered and records for both `20240101_001`
and `20240101_002`, the record-only version `20240101_001` is missing from
the listing. -/
theorem C5_counterexample :
    (EngineEss.GetStatus [("20240101_002", migFixB)] [recFixA, recFixB]).map
        (fun s => s.version)
      = ["20240101_002"] ∧
    "20240101_001" ∈ [recFixA, recFixB].map (fun r => r.version) := by decide

/-- C5 (amended): the first engine's `GetStatus` covers exactly the union of
registered and recorded versions, sorted strictly ascending; an entry is
applied with the stored `applied_at` exactly when a record exists for the
version, and a record-only version keeps its stored description.  The second
engine's `GetStatus` lists only the registered versions, omitting
record-only versions (see the counterexample). -/
theorem C5_status_union (migs : Registry) (records : List MigRecord)
    (hnd : (regKeys migs).Nodup) (hrnd : (records.map (·.version)).Nodup) :
    (∀ v, (∃ s ∈ EngineTool.GetStatus migs records, s.version = v) ↔
        (v ∈ regKeys migs ∨ v ∈ records.map (·.version))) ∧
    ((EngineTool.GetStatus migs records).map (·.version)).Pairwise
      (fun a b => sLt a b = true) ∧
    (∀ s ∈ EngineTool.GetStatus migs records,
      (s.applied = true ↔ ∃ r ∈ records, r.version = s.version) ∧
      (∀ r ∈ records, r.version = s.version →
        s.appliedAt = some r.appliedAt ∧
        (lookupMig migs s.version = none → s.description = r.description)) ∧
      (s.applied = false → s.appliedAt = none)) ∧
    ((EngineEss.GetStatus migs records).map (·.version)
      = EngineEss.getSortedVersions migs) := by
  have hver : (EngineTool.GetStatus migs records).map (·.version)
      = sortStrings (regKeys migs ++ (dedupKeys (records.map (·.version))).filter
          (fun v => !(v ∈ regKeys migs : Bool))) := by
    simp only [EngineTool.GetStatus, List.map_map]
    exact List.map_id'' (fun v => rfl) _
  refine ⟨?_, ?_, ?_, ?_⟩
  · intro v
    have hmm : (∃ s ∈ EngineTool.GetStatus migs records, s.version = v) ↔
        v ∈ (EngineTool.GetStatus migs records).map (·.version) :=
      (List.mem_map).symm
    rw [hmm, hver, mem_sortStrings, List.mem_append, List.mem_filter, mem_dedupKeys]
    by_cases hk : v ∈ regKeys migs <;> simp [hk]
  · rw [hver]
    refine sortStrings_pairwise_sLt ?_
    refine List.Nodup.append hnd (List.Nodup.filter _ (nodup_dedupKeys _)) ?_
    intro a ha hb
    rw [List.mem_filter] at hb
    have := hb.2
    simp [ha] at this
  · intro s hs
    simp only [EngineTool.GetStatus] at hs
    rcases List.mem_map.mp hs with ⟨v, hv, rfl⟩
    refine ⟨?_, ?_, ?_⟩
    · show ((buildAppliedMap records v).isSome = true ↔ _)
      rw [buildAppliedMap_isSome, List.mem_map]
    · intro r hr hrv
      have hsome : buildAppliedMap records v = some r := by
        have := buildAppliedMap_eq_some hrnd hr
        rw [hrv] at this
        exact this
      constructor
      · show (buildAppliedMap records v).map (·.appliedAt) = some r.appliedAt
        rw [hsome]
        rfl
      · intro hlk
        show (match lookupMig migs v with
              | some m => m.description
              | none => match buildAppliedMap records v with
                        | some r => r.description
                        | none => "") = r.description
        rw [hlk, hsome]
    · intro happ
      show (buildAppliedMap records v).map (·.appliedAt) = none
      have : (buildAppliedMap records v).isSome = false := happ
      rcases h : buildAppliedMap records v with _ | r
      · rfl
      · rw [h] at this
        simp at this
  · simp only [EngineEss.GetStatus, List.map_map]
    exact List.map_id'' (fun v => rfl) _

/-- Witness for C5 at the fixture registry with one record-only version. -/
theorem C5_status_union_witness :
    ((regKeys [("20240101_002", migFixB)]).Nodup ∧
      ([recFixA, recFixB].map (fun r => r.version)).Nodup) ∧
    (∀ v, (∃ s ∈ EngineTool.GetStatus [("20240101_002", migFixB)] [recFixA, recFixB],
        s.version = v) ↔
      (v ∈ regKeys [("20240101_002", migFixB)] ∨
        v ∈ [recFixA, recFixB].map (fun r => r.version))) :=
  ⟨⟨by decide, by decide⟩,
   (C5_status_union [("20240101_002", migFixB)] [recFixA, recFixB]
     (by decide) (by decide)).1⟩

/-! ## Claim C6 -/

/-- An oracle whose lock insert hits the unique index (another holder). -/
def envDup : Env := { envOk with lockInsertResult := some .duplicateKey }

/-- C6 counterexample: the claim fails on the first engine.  Its
`acquireLock` (part_030 lines 65-88) ensures only the unique `lock_id`
index — it never creates a TTL index on `acquired_at`, so no index with an
expiry is ensured. -/
theorem C6_counterexample :
    (EngineTool.acquireLock envOk ctx0 "schema_migrations" dbOnlyA).2.2
      = [Event.ensureIndex "schema_migrations_lock" ⟨"lock_id", true, none⟩,
         Event.lockInsert ctx0] ∧
    ((EngineTool.acquireLock envOk ctx0 "schema_migrations" dbOnlyA).2.2.all
      (fun e => match e with
        | .ensureIndex _ spec => spec.expireAfterSeconds == none
        | _ => true)) = true := by decide

/-- C6 (amended): the second engine's `acquireLock` ensures both a unique
index on `lock_id` and a TTL index on `acquired_at` with a 600-second expiry
on the lock collection, then inserts the sentinel; it returns the lock-held
failure exactly when the insert reports a duplicate key, and any other insert
error propagates unchanged.  (The first engine ensures only the unique index
— see the counterexample.) -/
theorem C6_acquire_lock (env : Env) (ctx : Ctx) (st : DB) :
    (EngineEss.acquireLock env ctx st).2.2
      = [Event.ensureIndex EngineEss.collLock EngineEss.ttlIndex,
         Event.ensureIndex EngineEss.collLock EngineEss.uniqueLockIndex,
         Event.lockInsert ctx] ∧
    EngineEss.ttlIndex = ⟨"acquired_at", false, some 600⟩ ∧
    EngineEss.uniqueLockIndex = ⟨"lock_id", true, none⟩ ∧
    (env.lockInsertResult = none →
      (EngineEss.acquireLock env ctx st).1 = .ok () ∧
      (EngineEss.acquireLock env ctx st).2.1 = { st with lockDoc := some env.now }) ∧
    ((EngineEss.acquireLock env ctx st).1 = .error .lockHeld ↔
      env.lockInsertResult = some .duplicateKey) ∧
    (∀ msg, env.lockInsertResult = some (.other msg) →
      (EngineEss.acquireLock env ctx st).1 = .error (.lockOther msg) ∧
      (EngineEss.acquireLock env ctx st).2.1 = st) := by
  rcases hres : env.lockInsertResult with _ | ie
  · refine ⟨by simp [EngineEss.acquireLock, hres], rfl, rfl, ?_, ?_, ?_⟩
    · intro _
      constructor <;> simp [EngineEss.acquireLock, hres]
    · simp [EngineEss.acquireLock, hres]
    · intro msg h
      exact Option.noConfusion h
  · cases ie with
    | duplicateKey =>
        refine ⟨by simp [EngineEss.acquireLock, hres], rfl, rfl, ?_, ?_, ?_⟩
        · intro h
          exact Option.noConfusion h
        · simp [EngineEss.acquireLock, hres]
        · intro msg h
          simp at h
    | other msg' =>
        refine ⟨by simp [EngineEss.acquireLock, hres], rfl, rfl, ?_, ?_, ?_⟩
        · intro h
          exact Option.noConfusion h
        · simp [EngineEss.acquireLock, hres]
        · intro msg h
          simp only [Option.some_inj, InsertErr.other.injEq] at h
          subst h
          constructor <;> simp [EngineEss.acquireLock, hres]

/-- Witness for C6: a successful acquisition and a duplicate-key
acquisition, both at concrete inputs. -/
theorem C6_acquire_lock_witness :
    (envOk.lockInsertResult = none ∧
      (EngineEss.acquireLock envOk ctx0 dbOnlyA).1 = .ok ()) ∧
    (envDup.lockInsertResult = some .duplicateKey ∧
      (EngineEss.acquireLock envDup ctx0 dbOnlyA).1 = .error .lockHeld) :=
  ⟨⟨rfl, ((C6_acquire_lock envOk ctx0 dbOnlyA).2.2.2.1 rfl).1⟩,
   ⟨rfl, ((C6_acquire_lock envDup ctx0 dbOnlyA).2.2.2.2.1).mpr rfl⟩⟩

/-! ## Claim C7 -/

/-- An oracle whose transactional attempts fail with command error 251
(`NoSuchTransaction`). -/
def envTx251 : Env :=
  { envOk with txResult := fun _ _ => some (.command 251 "NoSuchTransaction") }

/-- C7 counterexample: the claim fails on the first engine.  Its
`executeMigration` (part_030 lines 284-288) retries without a transaction
only for command error code 20; code 251 — which the classifier the claim
describes treats as transactions-not-supported — is returned as the failure
with no non-transactional rerun (no body was invoked). -/
theorem C7_counterexample :
    (EngineTool.executeMigration envTx251 migFixA .up dbOnlyA).1
      = .error (.txFailed "20240101_001" (.command 251 "NoSuchTransaction")) ∧
    (EngineTool.executeMigration envTx251 migFixA .up dbOnlyA).2.2 = [] ∧
    isTransactionNotSupported (.command 251 "NoSuchTransaction") = true :=
  ⟨rfl, rfl, by decide⟩

/-- C7 (amended): the second engine's `executeWithRetry` re-runs the pair
without a transaction exactly when `isTransactionNotSupported` classifies the
transactional failure (codes 20, 251 and 303 on command or write-concern
errors, or an error text containing "transactions are not supported"); any
other failure is returned without a retry, and the retried pair keeps the
order: migration body first, record write or delete second.  (The first
engine's executor retries only on command error code 20 — see the
counterexample.) -/
theorem C7_retry_exactly_when_unsupported
    (env : Env) (m : Migration) (dir : Direction) (st : DB) :
    (∀ e, env.txResult m.version dir = some e →
      EngineEss.executeWithRetry env m dir st
        = if isTransactionNotSupported e then EngineEss.perform env m dir st
          else (.error (.txFailed m.version e), st, [])) ∧
    (∀ code msg, code = 20 ∨ code = 251 ∨ code = 303 →
      isTransactionNotSupported (.command code msg) = true ∧
      isTransactionNotSupported (.writeConcern code msg) = true) ∧
    (∀ msg, containsLower msg txNotSupportedMsg = true →
      isTransactionNotSupported (.other msg) = true) ∧
    ((EngineEss.perform env m .up st).2.2 = [.applyMig m.version] ∨
      (EngineEss.perform env m .up st).2.2
        = [.applyMig m.version, .insertRecord m.version]) ∧
    ((EngineEss.perform env m .down st).2.2 = [.revertMig m.version] ∨
      (EngineEss.perform env m .down st).2.2
        = [.revertMig m.version, .deleteRecord m.version]) := by
  refine ⟨?_, ?_, ?_, ?_, ?_⟩
  · intro e he
    simp [EngineEss.executeWithRetry, he]
  · intro code msg hcode
    rcases hcode with rfl | rfl | rfl <;>
      exact ⟨by simp [isTransactionNotSupported], by simp [isTransactionNotSupported]⟩
  · intro msg h
    simp [isTransactionNotSupported, h]
  · cases hb : env.bodyOk m.version Direction.up
    · exact .inl (by simp [EngineEss.perform, hb])
    · cases hr : env.recordOk m.version Direction.up
      · exact .inr (by simp [EngineEss.perform, hb, hr])
      · exact .inr (by simp [EngineEss.perform, hb, hr])
  · cases hb : env.bodyOk m.version Direction.down
    · exact .inl (by simp [EngineEss.perform, hb])
    · cases hr : env.recordOk m.version Direction.down
      · exact .inr (by simp [EngineEss.perform, hb, hr])
      · exact .inr (by simp [EngineEss.perform, hb, hr])

/-- Witness for C7: a code-251 transactional failure is retried via
`perform` on the second engine. -/
theorem C7_retry_exactly_when_unsupported_witness :
    envTx251.txResult migFixA.version .up = some (.command 251 "NoSuchTransaction") ∧
    EngineEss.executeWithRetry envTx251 migFixA .up dbOnlyA
      = EngineEss.perform envTx251 migFixA .up dbOnlyA :=
  ⟨rfl, by
    have h := (C7_retry_exactly_when_unsupported envTx251 migFixA .up dbOnlyA).1
      (.command 251 "NoSuchTransaction") rfl
    rw [if_pos (by decide)] at h
    exact h⟩

/-! ## Claim C8 -/

/-- C8: whenever `run` (part_030 lines 503-537) acquires the lock, the
deferred `releaseLock(context.Background())` is the final action on every
exit path: the event log ends with exactly one lock-delete, issued under the
fresh background context (never the caller's, cancelled or not); the caller's
result is oblivious to the release flag of the oracle — a release failure is
never propagated — and when the delete succeeds the lock document is gone. -/
theorem C8_lock_released
    (env : Env) (ctx : Ctx) (migs : Registry) (dir : Direction) (target : String)
    (st : DB) (hlock : env.lockInsertResult = none) :
    (∃ pre, (EngineEss.run env ctx migs dir target st).2.2
        = pre ++ [Event.lockDelete Ctx.background]) ∧
    (∀ c, Event.lockDelete c ∈ (EngineEss.run env ctx migs dir target st).2.2 →
      c = Ctx.background) ∧
    Ctx.background.cancelled = false ∧
    ((EngineEss.run { env with releaseOk := true } ctx migs dir target st).1
      = (EngineEss.run { env with releaseOk := false } ctx migs dir target st).1) ∧
    (env.releaseOk = true →
      (EngineEss.run env ctx migs dir target st).2.1.lockDoc = none) := by
  have hrun : ∀ (e : Env), e.lockInsertResult = none → e.findErr = none →
      EngineEss.run e ctx migs dir target st
        = ((EngineEss.runLoop e migs (buildAppliedMap st.records) dir
              (EngineEss.planExecution migs dir target
                (fun v => (buildAppliedMap st.records v).isSome))
              { st with lockDoc := some e.now }).1,
           (if e.releaseOk then
              { (EngineEss.runLoop e migs (buildAppliedMap st.records) dir
                  (EngineEss.planExecution migs dir target
                    (fun v => (buildAppliedMap st.records v).isSome))
                  { st with lockDoc := some e.now }).2.1 with lockDoc := none }
            else
              (EngineEss.runLoop e migs (buildAppliedMap st.records) dir
                  (EngineEss.planExecution migs dir target
                    (fun v => (buildAppliedMap st.records v).isSome))
                  { st with lockDoc := some e.now }).2.1),
           [Event.ensureIndex EngineEss.collLock EngineEss.ttlIndex,
            Event.ensureIndex EngineEss.collLock EngineEss.uniqueLockIndex,
            Event.lockInsert ctx]
             ++ (EngineEss.runLoop e migs (buildAppliedMap st.records) dir
                  (EngineEss.planExecution migs dir target
                    (fun v => (buildAppliedMap st.records v).isSome))
                  { st with lockDoc := some e.now }).2.2
             ++ [Event.lockDelete Ctx.background]) := by
    intro e he hf
    simp [EngineEss.run, EngineEss.acquireLock, he, hf, EngineEss.releaseLock]
  have hrunErr : ∀ (e : Env) (msg : String), e.lockInsertResult = none →
      e.findErr = some msg →
      EngineEss.run e ctx migs dir target st
        = (.error (.readRecords msg),
           (if e.releaseOk then
              { st with lockDoc := none }
            else { st with lockDoc := some e.now }),
           [Event.ensureIndex EngineEss.collLock EngineEss.ttlIndex,
            Event.ensureIndex EngineEss.collLock EngineEss.uniqueLockIndex,
            Event.lockInsert ctx, Event.lockDelete Ctx.background]) := by
    intro e msg he hf
    cases hrel : e.releaseOk <;>
      simp [EngineEss.run, EngineEss.acquireLock, he, hf, EngineEss.releaseLock, hrel]
  rcases hf : env.findErr with _ | msg
  · refine ⟨?_, ?_, rfl, ?_, ?_⟩
    · refine ⟨[Event.ensureIndex EngineEss.collLock EngineEss.ttlIndex,
          Event.ensureIndex EngineEss.collLock EngineEss.uniqueLockIndex,
          Event.lockInsert ctx]
          ++ (EngineEss.runLoop env migs (buildAppliedMap st.records) dir
              (EngineEss.planExecution migs dir target
                (fun v => (buildAppliedMap st.records v).isSome))
              { st with lockDoc := some env.now }).2.2, ?_⟩
      rw [hrun env hlock hf]
    · intro c hmem
      rw [hrun env hlock hf] at hmem
      rcases List.mem_append.mp hmem with hmem' | h3
      · rcases List.mem_append.mp hmem' with h1 | h2
        · rcases List.mem_cons.mp h1 with h | h
          · exact Event.noConfusion h
          · rcases List.mem_cons.mp h with h' | h'
            · exact Event.noConfusion h'
            · rcases List.mem_cons.mp h' with h'' | h''
              · exact Event.noConfusion h''
              · cases h''
        · exact absurd h2 (EngineEss.runLoop_no_lock_delete env migs _ dir _ _ c)
      · rcases List.mem_cons.mp h3 with h | h
        · injection h
        · cases h
    · rw [hrun { env with findErr := none, releaseOk := true } hlock rfl,
        hrun { env with findErr := none, releaseOk := false } hlock rfl]
      dsimp only
      exact congrArg Prod.fst
        (EngineEss.runLoop_env_agnostic
          { env with findErr := none, releaseOk := true }
          { env with findErr := none, releaseOk := false }
          migs (buildAppliedMap st.records) dir rfl rfl rfl rfl rfl _ _)
    · intro hrel
      rw [hrun env hlock hf]
      simp [hrel]
  · refine ⟨?_, ?_, rfl, ?_, ?_⟩
    · refine ⟨[Event.ensureIndex EngineEss.collLock EngineEss.ttlIndex,
          Event.ensureIndex EngineEss.collLock EngineEss.uniqueLockIndex,
          Event.lockInsert ctx], ?_⟩
      rw [hrunErr env msg hlock hf]
      rfl
    · intro c hmem
      rw [hrunErr env msg hlock hf] at hmem
      rcases List.mem_cons.mp hmem with h | h
      · exact Event.noConfusion h
      · rcases List.mem_cons.mp h with h' | h'
        · exact Event.noConfusion h'
        · rcases List.mem_cons.mp h' with h'' | h''
          · exact Event.noConfusion h''
          · rcases List.mem_cons.mp h'' with h''' | h'''
            · cases h'''; rfl
            · cases h'''
    · rw [hrunErr { env with findErr := some msg, releaseOk := true } msg hlock rfl,
        hrunErr { env with findErr := some msg, releaseOk := false } msg hlock rfl]
    · intro hrel
      rw [hrunErr env msg hlock hf]
      simp [hrel]

/-- Witness for C8 at a concrete run (empty registry, caller context
cancelled). -/
theorem C8_lock_released_witness :
    envOk.lockInsertResult = none ∧
    (∃ pre, (EngineEss.run envOk ⟨true⟩ ([] : Registry) .up "" dbOnlyA).2.2
        = pre ++ [Event.lockDelete Ctx.background]) ∧
    (EngineEss.run envOk ⟨true⟩ ([] : Registry) .up "" dbOnlyA).2.1.lockDoc = none :=
  ⟨rfl,
   (C8_lock_released envOk ⟨true⟩ [] .up "" dbOnlyA rfl).1,
   (C8_lock_released envOk ⟨true⟩ [] .up "" dbOnlyA rfl).2.2.2.2 rfl⟩

/-! ## Claim C9 -/

/-- C9 counterexample: nil entries are *not* ignored.  No registry variant
checks for nil; `Register(nil)` reaches `m.Version()` — a method call through
a nil interface — and panics instead of leaving the registry unchanged. -/
theorem C9_counterexample :
    RegistryTool.Register [] [none] = .panicked nilDerefMsg ∧
    RegistryTool.Register [] [none] ≠ .ok [] := by decide

/-- C9 (amended): the variadic `Register` of the global registry
(`src/migration/registry.go`, `src/unnamed/part_028`) panics on a duplicate
version and also panics on a nil entry (there is no nil check); a fresh
version is inserted.  The mutex-guarded variant (`src/unnamed/part_029`)
never panics on duplicates — plain map assignment overwrites — but still
panics on nil. -/
theorem C9_register (reg : Registry) (m : Migration) :
    ((lookupMig reg m.version).isSome = true →
      RegistryTool.Register reg [some m]
        = .panicked ("migration: duplicate version registered: " ++ m.version)) ∧
    RegistryTool.Register reg [none] = .panicked nilDerefMsg ∧
    ((lookupMig reg m.version).isSome = false →
      RegistryTool.Register reg [some m] = .ok (reg ++ [(m.version, m)])) ∧
    RegistrySync.Register reg (some m)
      = .ok (RegistrySync.mapInsert reg m.version m) ∧
    RegistrySync.Register reg none = .panicked nilDerefMsg := by
  refine ⟨?_, rfl, ?_, rfl, rfl⟩
  · intro h
    simp [RegistryTool.Register, h]
  · intro h
    simp [RegistryTool.Register, h]

/-- Witness for C9: a duplicate registration panics, a fresh one is
inserted, at concrete inputs. -/
theorem C9_register_witness :
    ((lookupMig regFix migFixA.version).isSome = true ∧
      RegistryTool.Register regFix [some migFixA]
        = .panicked ("migration: duplicate version registered: " ++ migFixA.version)) ∧
    ((lookupMig regFix (Migration.mk "20240101_003" "teams").version).isSome = false ∧
      RegistryTool.Register regFix [some (Migration.mk "20240101_003" "teams")]
        = .ok (regFix ++ [("20240101_003", Migration.mk "20240101_003" "teams")])) :=
  ⟨⟨by decide, (C9_register regFix migFixA).1 (by decide)⟩,
   ⟨by decide, (C9_register regFix (Migration.mk "20240101_003" "teams")).2.2.1 (by decide)⟩⟩

/-! ## Claim C10 -/

/-- C10: for every applied-record snapshot, direction and target, both
planners (`getMigrationsToExecute` of the first engine, `planExecution` of the
second) emit only keys of the registered-migration map, each at most once; an
up plan contains only versions without a record, a down plan only versions
with one — so the execution loop's registry lookup never yields a missing
migration within a single run. -/
theorem C10_plan_within_registry (migs : Registry) (dir : Direction)
    (target : String) (applied : String → Bool)
    (hnd : (regKeys migs).Nodup) :
    ((∀ v ∈ EngineTool.getMigrationsToExecute migs dir target applied,
        (lookupMig migs v).isSome = true) ∧
      (EngineTool.getMigrationsToExecute migs dir target applied).Nodup ∧
      (dir = .up →
        ∀ v ∈ EngineTool.getMigrationsToExecute migs dir target applied,
          applied v = false) ∧
      (dir = .down →
        ∀ v ∈ EngineTool.getMigrationsToExecute migs dir target applied,
          applied v = true)) ∧
    ((∀ v ∈ EngineEss.planExecution migs dir target applied,
        (lookupMig migs v).isSome = true) ∧
      (EngineEss.planExecution migs dir target applied).Nodup ∧
      (dir = .up →
        ∀ v ∈ EngineEss.planExecution migs dir target applied,
          applied v = false) ∧
      (dir = .down →
        ∀ v ∈ EngineEss.planExecution migs dir target applied,
          applied v = true)) := by
  have hsortnd : (sortStrings (regKeys migs)).Nodup := sortStrings_nodup hnd
  have hmemkeys : ∀ v ∈ sortStrings (regKeys migs), (lookupMig migs v).isSome = true :=
    fun v hv => lookupMig_isSome.mpr (mem_sortStrings.mp hv)
  cases dir
  · have hT := EngineTool.getMigrationsForUp_sublist (sortStrings (regKeys migs)) target applied
    have hE := EngineEss.planGo_up_sublist (sortStrings (regKeys migs)) target applied
    refine ⟨⟨?_, ?_, ?_, ?_⟩, ⟨?_, ?_, ?_, ?_⟩⟩
    · intro v hv
      exact hmemkeys v (hT.1.subset hv)
    · exact hT.1.nodup hsortnd
    · intro _ v hv
      exact hT.2 v hv
    · intro h
      exact absurd h (by intro h; cases h)
    · intro v hv
      exact hmemkeys v (hE.1.subset hv)
    · exact hE.1.nodup hsortnd
    · intro _ v hv
      exact hE.2 v hv
    · intro h
      exact absurd h (by intro h; cases h)
  · have hT := EngineTool.downGo_sublist (sortStrings (regKeys migs)).reverse target applied
    have hE := EngineEss.planGo_down_sublist (sortStrings (regKeys migs)).reverse target applied
    have hrevnd : (sortStrings (regKeys migs)).reverse.Nodup :=
      List.nodup_reverse.mpr hsortnd
    have hmemrev : ∀ v ∈ (sortStrings (regKeys migs)).reverse,
        (lookupMig migs v).isSome = true :=
      fun v hv => hmemkeys v (List.mem_reverse.mp hv)
    refine ⟨⟨?_, ?_, ?_, ?_⟩, ⟨?_, ?_, ?_, ?_⟩⟩
    · intro v hv
      exact hmemrev v (hT.1.subset hv)
    · exact hT.1.nodup hrevnd
    · intro h
      exact absurd h (by intro h; cases h)
    · intro _ v hv
      exact hT.2 v hv
    · intro v hv
      exact hmemrev v (hE.1.subset hv)
    · exact hE.1.nodup hrevnd
    · intro h
      exact absurd h (by intro h; cases h)
    · intro _ v hv
      exact hE.2 v hv

/-- Witness for C10 at a concrete registry, direction and snapshot. -/
theorem C10_plan_within_registry_witness :
    (regKeys [("20240101_001", Migration.mk "20240101_001" "users"),
              ("20240101_002", Migration.mk "20240101_002" "indexes")]).Nodup ∧
    ((∀ v ∈ EngineTool.getMigrationsToExecute
        [("20240101_001", Migration.mk "20240101_001" "users"),
         ("20240101_002", Migration.mk "20240101_002" "indexes")] .up "" (fun _ => false),
        (lookupMig [("20240101_001", Migration.mk "20240101_001" "users"),
         ("20240101_002", Migration.mk "20240101_002" "indexes")] v).isSome = true) ∧
      (EngineTool.getMigrationsToExecute
        [("20240101_001", Migration.mk "20240101_001" "users"),
         ("20240101_002", Migration.mk "20240101_002" "indexes")] .up "" (fun _ => false)).Nodup ∧
      (Direction.up = .up →
        ∀ v ∈ EngineTool.getMigrationsToExecute
          [("20240101_001", Migration.mk "20240101_001" "users"),
           ("20240101_002", Migration.mk "20240101_002" "indexes")] .up "" (fun _ => false),
          (fun _ => false : String → Bool) v = false) ∧
      (Direction.up = .down →
        ∀ v ∈ EngineTool.getMigrationsToExecute
          [("20240101_001", Migration.mk "20240101_001" "users"),
           ("20240101_002", Migration.mk "20240101_002" "indexes")] .up "" (fun _ => false),
          (fun _ => false : String → Bool) v = true)) ∧
    ((∀ v ∈ EngineEss.planExecution
        [("20240101_001", Migration.mk "20240101_001" "users"),
         ("20240101_002", Migration.mk "20240101_002" "indexes")] .up "" (fun _ => false),
        (lookupMig [("20240101_001", Migration.mk "20240101_001" "users"),
         ("20240101_002", Migration.mk "20240101_002" "indexes")] v).isSome = true) ∧
      (EngineEss.planExecution
        [("20240101_001", Migration.mk "20240101_001" "users"),
         ("20240101_002", Migration.mk "20240101_002" "indexes")] .up "" (fun _ => false)).Nodup ∧
      (Direction.up = .up →
        ∀ v ∈ EngineEss.planExecution
          [("20240101_001", Migration.mk "20240101_001" "users"),
           ("20240101_002", Migration.mk "20240101_002" "indexes")] .up "" (fun _ => false),
          (fun _ => false : String → Bool) v = false) ∧
      (Direction.up = .down →
        ∀ v ∈ EngineEss.planExecution
          [("20240101_001", Migration.mk "20240101_001" "users"),
           ("20240101_002", Migration.mk "20240101_002" "indexes")] .up "" (fun _ => false),
          (fun _ => false : String → Bool) v = true)) :=
  ⟨by decide,
   C10_plan_within_registry
     [("20240101_001", Migration.mk "20240101_001" "users"),
      ("20240101_002", Migration.mk "20240101_002" "indexes")] .up "" (fun _ => false)
     (by decide)⟩

end MongoMigration
